import Mathlib

/-!
Verification development for the simple-rummikub-solver repository.

This file gives a shallow embedding, in Lean 4, of the tile data model
(`src/game/tile.rs`, `src/game/tile_color.rs`), the board/game logic
(`src/game/mod.rs`) and the solver (`src/solver/mod.rs`), and proves or
refutes the behavioural claims about them.

Conventions of the embedding:
* `u8` numbers become `Nat`; tile numbers in the data model are
  `1..=13` or the wildcard sentinel `251`, so no `u8` overflow or wrap
  is reachable in the modelled domain.
* Code that can panic in Rust (out-of-bounds indexing, `unwrap` on
  `None`) is modelled in the `Except String` monad, `Except.error`
  standing for a panic.
* Rust `HashMap`/`HashSet` iteration order is unspecified; the
  embedding fixes first-insertion order (one deterministic resolution
  of that nondeterminism, flagged as such by the spec itself).
* `sort_unstable` is modelled by a stable insertion sort on the same
  key (color rank, then number); `sort_unstable` leaves the relative
  order of equal keys unspecified, so the stable order is one of its
  allowed outcomes.
* The solver's recursive `search` is embedded with an explicit fuel
  argument; `SRes.out` marks fuel exhaustion.  The termination claim is
  then the statement that fuel exceeding the pool size is never
  exhausted.
-/

namespace Rummikub

/-- `TileColor` from `src/game/tile_color.rs`. -/
inductive TileColor where
  | Black : TileColor
  | Blue : TileColor
  | Orange : TileColor
  | Red : TileColor
deriving DecidableEq, Repr

/-- `TileColor::to_rank`. -/
def TileColor.toRank : TileColor → Nat
  | .Black => 0
  | .Blue => 1
  | .Orange => 2
  | .Red => 3

/-- `TileColor::iter`: the fixed color enumeration order. -/
def colorList : List TileColor := [.Black, .Blue, .Orange, .Red]

/-- The one-letter color code used by `Display for TileColor`. -/
def TileColor.code : TileColor → String
  | .Blue => "b"
  | .Black => "h"
  | .Orange => "o"
  | .Red => "r"

/-- `Tile` from `src/game/tile.rs`. -/
structure Tile where
  number : Nat
  color : TileColor
  is_wildcard : Bool
deriving DecidableEq, Repr

/-- Rust `PartialEq for Tile`: equality ignores the wildcard flag. -/
def Tile.req (a b : Tile) : Bool :=
  a.number == b.number && a.color == b.color

/-- The `Ord for Tile` key order: color rank first, then number.
This `a ≤ b` comparison is what drives the sort. -/
def tileKeyLe (a b : Tile) : Bool :=
  a.color.toRank < b.color.toRank ||
    (a.color.toRank == b.color.toRank && a.number ≤ b.number)

/-- Insert a tile into an already sorted list, after any equal keys
(the stable placement, one allowed outcome of `sort_unstable`). -/
def insertTile (t : Tile) : List Tile → List Tile
  | [] => [t]
  | x :: xs => if tileKeyLe x t then x :: insertTile t xs else t :: x :: xs

/-- `Vec::sort_unstable` on tiles, realised as insertion sort over the
`Ord for Tile` key. -/
def sortTiles (l : List Tile) : List Tile :=
  l.foldl (fun acc t => insertTile t acc) []

/-- `Tile::iter` from `src/game/tile.rs`: all 52 (number, color)
combinations, wildcard flag set, colors outermost. -/
def trialTiles : List Tile :=
  colorList.flatMap fun c => (List.range 13).map fun n => ⟨n + 1, c, true⟩

/-- `TilesType` from `src/game/mod.rs`. -/
inductive TilesType where
  | PureColor : TilesType
  | MixedColor : TilesType
deriving DecidableEq, Repr

/-- `Command` from `src/game/mod.rs`. -/
inductive Command where
  | Add : Command
  | Put : Command
  | Draw : Command
  | Replace : Command
deriving DecidableEq, Repr

/-- `GameOperation` from `src/game/mod.rs`. -/
structure GameOperation where
  command : Command
  index : Nat
  replace_tiles : Option (List Tile)
  tiles : List Tile
deriving DecidableEq, Repr

/-- `TileSetInfo` from `src/game/mod.rs`; `stop` embeds the Rust field
`end` (a Lean keyword). -/
structure TileSetInfo where
  tiles_type : TilesType
  start : Nat
  stop : Nat
  color : Option TileColor
deriving DecidableEq, Repr

/-- `Game` from `src/game/mod.rs`. -/
structure Game where
  board : List (List Tile)
  tiles_set_info : List TileSetInfo
deriving DecidableEq, Repr

/-- `Game::new`. -/
def gameNew : Game :=
  { board := [[]], tiles_set_info := [⟨.MixedColor, 1, 13, none⟩] }

/-- `Game::reset`: only the board is cleared. -/
def reset (g : Game) : Game :=
  { g with board := [[]] }

/-- Panic message used for all out-of-bounds/`unwrap` panics. -/
def panicMsg : String := "panic"

/-- `Game::wildcard_count`. -/
def wildcardCount (tiles : List Tile) : Nat :=
  tiles.foldl (fun c t => if t.is_wildcard then c + 1 else c) 0

/-- Count of distinct elements of a list, in the service of the
`HashSet`-based color counters. -/
def distinctCount {α : Type} [DecidableEq α] (l : List α) : Nat :=
  (l.foldl (fun seen x => if x ∈ seen then seen else seen ++ [x]) []).length

/-- `Game::get_colors_count`: distinct colors among non-wildcards. -/
def getColorsCount (tiles : List Tile) : Nat :=
  distinctCount ((tiles.filter (fun t => !t.is_wildcard)).map Tile.color)

/-- The color set built inside `Game::is_valid_mixed_color_tiles`,
which does not skip wildcards. -/
def distinctColorsAll (tiles : List Tile) : Nat :=
  distinctCount (tiles.map Tile.color)

/-- `Game::get_tiles_type`. -/
def getTilesType (tiles : List Tile) : TilesType :=
  if getColorsCount tiles = 1 then .PureColor else .MixedColor

/-- `Game::get_range`: numeric (min, max) over non-wildcards, starting
from (u8::MAX, u8::MIN). -/
def getRange (tiles : List Tile) : Nat × Nat :=
  tiles.foldl
    (fun p t => if t.is_wildcard then p else (min p.1 t.number, max p.2 t.number))
    (255, 0)

/-- The `TileSetInfo` computation shared by `Game::push_tiles_set_info`
and `Game::set_tiles_set_info`.  The `then_some(tiles[0].color)`
argument is evaluated eagerly in Rust, so an empty slot panics here
regardless of the tiles type. -/
def mkTilesSetInfo (tiles : List Tile) : Except String TileSetInfo :=
  match tiles.head? with
  | none => .error panicMsg
  | some t0 =>
    let ty := getTilesType tiles
    let r := getRange tiles
    .ok ⟨ty, r.1, r.2, if ty = .PureColor then some t0.color else none⟩

/-- The numeric minimum `min_by_key(|tile| tile.number)` (its key),
`none` on the empty list where Rust's `.unwrap()` panics. -/
def minNumber : List Tile → Option Nat
  | [] => none
  | t :: ts => some (ts.foldl (fun m u => if u.number < m then u.number else m) t.number)

/-- The numeric maximum `max_by_key(|tile| tile.number)` (its key). -/
def maxNumber : List Tile → Option Nat
  | [] => none
  | t :: ts => some (ts.foldl (fun m u => if m < u.number then u.number else m) t.number)

/-- The inner consecutive-number scan of
`Game::is_valid_pure_color_tiles`: each tile's number must equal a
running counter. -/
def scanConsec : List Tile → Nat → Bool
  | [], _ => true
  | t :: ts, v => if t.number = v then scanConsec ts (v + 1) else false

/-- `Game::is_valid_pure_color_tiles`.  A sub-list failing the inner
scan only breaks the inner loop; the outer loop continues (and may
still panic on a later empty sub-list), which the accumulator `acc`
mirrors. -/
def isValidPureAux (acc : Bool) : List (List Tile) → Except String Bool
  | [] => .ok acc
  | ts :: rest =>
    match minNumber ts with
    | none => .error panicMsg
    | some v =>
      if ts.length < 3 then .ok false
      else isValidPureAux (acc && scanConsec ts v) rest

/-- `Game::is_valid_pure_color_tiles` over a set of tile groups. -/
def isValidPureColorTiles (tilesSet : List (List Tile)) : Except String Bool :=
  isValidPureAux true tilesSet

/-- `Game::is_valid_mixed_color_tiles`: every group has at least three
distinct colors (wildcard flags are not skipped here). -/
def isValidMixedColorTiles (tilesSet : List (List Tile)) : Bool :=
  tilesSet.all fun ts => 3 ≤ distinctColorsAll ts

/-- Checked list read: Rust slice indexing, panicking out of bounds. -/
def getChecked {α : Type} (l : List α) (i : Nat) : Except String α :=
  match l.get? i with
  | some x => .ok x
  | none => .error panicMsg

/-- Checked list write: Rust slice index assignment, panicking out of
bounds. -/
def setChecked {α : Type} (l : List α) (i : Nat) (x : α) : Except String (List α) :=
  if i < l.length then .ok (l.set i x) else .error panicMsg

/-- Group a tile list by a key, keys in first-insertion order, each
group keeping list order (the deterministic resolution chosen for
`HashMap` entry iteration). -/
def addToGroups {κ : Type} [DecidableEq κ] (k : κ) (t : Tile) :
    List (κ × List Tile) → List (κ × List Tile)
  | [] => [(k, [t])]
  | (c, l) :: rest =>
    if c = k then (c, l ++ [t]) :: rest else (c, l) :: addToGroups k t rest

/-- Fold a tile list into keyed groups. -/
def groupByKey {κ : Type} [DecidableEq κ] (key : Tile → κ) (ts : List Tile) :
    List (κ × List Tile) :=
  ts.foldl (fun g t => addToGroups (key t) t g) []

/-- One step of the two-way distribution used by
`Game::split_mixed_colors_tiles` (and by the solver's duplicated
`generate_mixed_colors_tiles_set` closures): a color occurring twice
contributes its first two tiles, one to each half; a singleton color
goes to the currently smaller half. -/
def foldSplitStep (s : List Tile × List Tile) (l : List Tile) : List Tile × List Tile :=
  match l with
  | [] => s  -- unreachable: groups built by groupByKey are nonempty
  | [x] => if s.1.length < s.2.length then (s.1 ++ [x], s.2) else (s.1, s.2 ++ [x])
  | x :: y :: _ => (s.1 ++ [x], s.2 ++ [y])

/-- The two-way distribution over all color groups. -/
def foldSplit (groups : List (TileColor × List Tile)) (init : List Tile × List Tile) :
    List Tile × List Tile :=
  groups.foldl (fun s g => foldSplitStep s g.2) init

/-- The `last_repeat` scan of `Game::split_pure_color_tiles`: the last
index whose tile equals (Rust `==`, flag-blind) its predecessor. -/
def lastRepeatAux : Tile → Nat → Nat → List Tile → Nat
  | _, _, acc, [] => acc
  | prev, i, acc, t :: ts =>
    lastRepeatAux t (i + 1) (if Tile.req t prev then i else acc) ts

/-- The distribution walk of `Game::split_pure_color_tiles`: index `≥
last_repeat` or equal to its predecessor goes to the second half. -/
def splitPureWalk : Tile → Nat → Nat → List Tile → List Tile × List Tile → List Tile × List Tile
  | _, _, _, [], p => p
  | prev, i, lr, t :: ts, (s1, s2) =>
    if lr ≤ i ∨ Tile.req t prev then splitPureWalk t (i + 1) lr ts (s1, s2 ++ [t])
    else splitPureWalk t (i + 1) lr ts (s1 ++ [t], s2)

/-- `Game::split_pure_color_tiles`. -/
def splitPureColorTiles (tiles : List Tile) : List (List Tile) :=
  match tiles with
  | [] => [[], []]  -- unreachable: only called on lists of length ≥ 6
  | t0 :: rest =>
    let lr := lastRepeatAux t0 1 0 rest
    let s := splitPureWalk t0 1 lr rest ([t0], [])
    [s.1, s.2]

/-- `Game::split_mixed_colors_tiles`. -/
def splitMixedColorsTiles (tiles : List Tile) : List (List Tile) :=
  let cgroups := groupByKey Tile.color tiles
  let maxColorCount := (cgroups.map fun g => g.2.length).foldl max 0
  if maxColorCount ≤ 2 then
    let s := foldSplit cgroups ([], [])
    [s.1, s.2]
  else
    match groupByKey Tile.number tiles with
    | [] => [[], []]  -- unreachable: only called on lists of length ≥ 6
    | g0 :: gs =>
      -- max_by_key keeps the last maximal entry in iteration order
      let best := gs.foldl (fun b g => if b.2.length ≤ g.2.length then g else b) g0
      [best.2, tiles.filter fun t => t.number ≠ best.1]

/-- `Game::check_and_split`. -/
def checkAndSplit (tiles : List Tile) : List (List Tile) :=
  if tiles.length < 6 then [tiles]
  else
    match getTilesType tiles with
    | .PureColor => splitPureColorTiles tiles
    | .MixedColor => splitMixedColorsTiles tiles

/-- The inclusive number range `lo..=hi` as a list. -/
def numsFromTo (lo hi : Nat) : List Nat :=
  (List.range (hi + 1 - lo)).map (· + lo)

/-- The single-wildcard candidate loop of the PureColor arm of
`Game::wildcard_to_tiles`; `cur` is the running `tiles_set`, kept from
the previous iteration when the split is not valid. -/
def pureLoop1 (base : List Tile) (color : TileColor) (cur : List (List Tile)) :
    List Nat → Except String (List (List Tile))
  | [] => .ok cur
  | n :: ns => do
    let tset := checkAndSplit (sortTiles (base ++ [⟨n, color, true⟩]))
    let v ← isValidPureColorTiles tset
    if v then .ok tset else pureLoop1 base color tset ns

/-- The inner loop of the two-wildcard PureColor search; `break` leaves
only this inner loop. -/
def pureLoop2Inner (base : List Tile) (color : TileColor) (n1 : Nat)
    (cur : List (List Tile)) : List Nat → Except String (List (List Tile))
  | [] => .ok cur
  | n2 :: ns => do
    let tset := checkAndSplit (sortTiles (base ++ [⟨n1, color, true⟩, ⟨n2, color, true⟩]))
    let v ← isValidPureColorTiles tset
    if v then .ok tset else pureLoop2Inner base color n1 tset ns

/-- The outer loop of the two-wildcard PureColor search: it always runs
to completion, overwriting `tiles_set` even after an inner-loop
success (the `break` in the source only exits the inner loop). -/
def pureLoop2Outer (base : List Tile) (color : TileColor) (inner : List Nat)
    (cur : List (List Tile)) : List Nat → Except String (List (List Tile))
  | [] => .ok cur
  | n1 :: ns => do
    let cur2 ← pureLoop2Inner base color n1 cur inner
    pureLoop2Outer base color inner cur2 ns

/-- The single-wildcard candidate loop of the MixedColor arm of
`Game::wildcard_to_tiles`. -/
def mixedLoop1 (base : List Tile) (number : Nat) (cur : List (List Tile)) :
    List TileColor → Except String (List (List Tile))
  | [] => .ok cur
  | c :: cs =>
    let tset := checkAndSplit (sortTiles (base ++ [⟨number, c, true⟩]))
    if isValidMixedColorTiles tset then .ok tset else mixedLoop1 base number tset cs

/-- The inner loop of the two-wildcard MixedColor search. -/
def mixedLoop2Inner (base : List Tile) (number : Nat) (c1 : TileColor)
    (cur : List (List Tile)) : List TileColor → Except String (List (List Tile))
  | [] => .ok cur
  | c2 :: cs =>
    let tset := checkAndSplit (sortTiles (base ++ [⟨number, c1, true⟩, ⟨number, c2, true⟩]))
    if isValidMixedColorTiles tset then .ok tset
    else mixedLoop2Inner base number c1 tset cs

/-- The outer loop of the two-wildcard MixedColor search; runs to
completion just like its PureColor counterpart. -/
def mixedLoop2Outer (base : List Tile) (number : Nat) (cur : List (List Tile)) :
    List TileColor → Except String (List (List Tile))
  | [] => .ok cur
  | c1 :: cs => do
    let cur2 ← mixedLoop2Inner base number c1 cur colorList
    mixedLoop2Outer base number cur2 cs

/-- `Game::wildcard_to_tiles`. -/
def wildcardToTiles (tiles : List Tile) : Except String (List (List Tile)) :=
  let wc := wildcardCount tiles
  if wc = 0 then .ok (checkAndSplit tiles)
  else
    let base := tiles.filter fun t => !t.is_wildcard
    match getTilesType base with
    | .PureColor => do
      let t0 ← getChecked base 0
      let color := t0.color
      let lo ← match minNumber base with | none => .error panicMsg | some v => .ok v
      let hi ← match maxNumber base with | none => .error panicMsg | some v => .ok v
      let lo := max 1 (lo - 1)
      let hi := min 13 (hi + 1)
      if wc = 1 then pureLoop1 base color [] (numsFromTo lo hi)
      else if wc = 2 then
        pureLoop2Outer base color (numsFromTo (lo - 1) (hi + 1)) [] (numsFromTo lo hi)
      else .ok []
    | .MixedColor => do
      let t0 ← getChecked base 0
      let number := t0.number
      if wc = 1 then mixedLoop1 base number [] colorList
      else if wc = 2 then mixedLoop2Outer base number [] colorList
      else .ok []

/-- `Game::replace_wildcards`, one replacement: the first wildcard in
list order takes the concrete tile's number and color and drops its
flag. -/
def replOne (rt : Tile) : List Tile → List Tile
  | [] => []
  | t :: ts =>
    if t.is_wildcard then ⟨rt.number, rt.color, false⟩ :: ts else t :: replOne rt ts

/-- `Game::replace_wildcards`. -/
def replaceWildcards (tiles rts : List Tile) : List Tile :=
  sortTiles (rts.foldl (fun acc rt => replOne rt acc) tiles)

/-- `Game::operate`. -/
def operate (g : Game) (op : GameOperation) : Except String Game :=
  match op.command with
  | .Put => do
    let ts := sortTiles op.tiles
    let info ← mkTilesSetInfo ts
    .ok ⟨g.board ++ [ts], g.tiles_set_info ++ [info]⟩
  | .Replace => do
    let slot ← getChecked g.board op.index
    let wc := wildcardCount slot
    let rts ← match op.replace_tiles with | none => .error panicMsg | some r => .ok r
    if wc ≠ rts.length then .ok g
    else do
      let newSlot := replaceWildcards slot rts
      let board1 ← setChecked g.board op.index newSlot
      let info ← mkTilesSetInfo newSlot
      let infos1 ← setChecked g.tiles_set_info op.index info
      let combined := op.tiles ++ List.replicate wc ⟨251, .Red, true⟩
      let tset ← wildcardToTiles combined
      tset.foldlM
        (fun (acc : Game) ts => do
          let i ← mkTilesSetInfo ts
          .ok (⟨acc.board ++ [ts], acc.tiles_set_info ++ [i]⟩ : Game))
        ⟨board1, infos1⟩
  | _ => do
    -- Add and Draw share the default match arm
    let slot ← getChecked g.board op.index
    let slot1 := sortTiles (slot ++ op.tiles)
    if op.index = 0 then do
      let board1 ← setChecked g.board op.index slot1
      .ok ⟨board1, g.tiles_set_info⟩
    else do
      let tset ← wildcardToTiles slot1
      let first ← match tset.head? with | none => .error panicMsg | some f => .ok f
      let board1 ← setChecked g.board op.index first
      let info ← mkTilesSetInfo first
      let infos1 ← setChecked g.tiles_set_info op.index info
      if h : 1 < tset.length then do
        let second := tset.get ⟨1, h⟩
        let i2 ← mkTilesSetInfo second
        .ok ⟨board1 ++ [second], infos1 ++ [i2]⟩
      else .ok ⟨board1, infos1⟩

/-! ### Solver (`src/solver/mod.rs`)

`Solver::new_with_board` delegates to `Game::new_with_board`, which is
referenced by the solver but absent from the sources; per the spec it
merely wraps an externally supplied board into a throwaway game, and
`Solver::solve` only ever reads that board back through `get_board()`.
The embedding therefore takes the board snapshot directly. -/

/-- The `Display for Tile` rendering `color(number)w|n`. -/
def tileStr (t : Tile) : String :=
  t.color.code ++ "(" ++ toString t.number ++ ")" ++ (if t.is_wildcard then "w" else "n")

/-- `Solver::tiles_to_string`: the memo key, concatenating the
non-wildcard tiles' display strings. -/
def tilesToString (tiles : List Tile) : String :=
  (tiles.filter fun t => !t.is_wildcard).foldl (fun s t => s ++ tileStr t) ""

/-- All ordered pairs of trial wildcards, outer loop first. -/
def trialPairs : List (Tile × Tile) :=
  trialTiles.flatMap fun a => trialTiles.map fun b => (a, b)

/-- The consecutive-run scan shared by all branches of
`Solver::get_available_pure_color_tiles_sets`: walk the sorted list,
extending the current run while color matches and the number increases
by one, flushing runs of length ≥ 3 into the extracted sets and
shorter segments into the leftovers. -/
def scanRunsAux : Tile → List Tile → List Tile → List (List Tile) → List Tile →
    List (List Tile) × List Tile
  | _, [], cur, sets, leaves =>
    if 3 ≤ cur.length then (sets ++ [cur], leaves) else (sets, leaves ++ cur)
  | prev, t :: ts, cur, sets, leaves =>
    if t.color = prev.color ∧ t.number = prev.number + 1 then
      scanRunsAux t ts (cur ++ [t]) sets leaves
    else if 3 ≤ cur.length then scanRunsAux t ts [t] (sets ++ [cur]) leaves
    else scanRunsAux t ts [t] sets (leaves ++ cur)

/-- The run scan seeded with `cur_tiles = vec![tiles[0]]`.  In the
wildcard branches the seed is read from the list *before* the trial
wildcard is pushed and the list re-sorted, so the seed need not equal
the head of the sorted list — faithfully mirrored by the separate
`cur0` argument. -/
def scanRuns (cur0 : Tile) : List Tile → List (List Tile) × List Tile
  | [] => ([], [])  -- unreachable: the scanned list is never empty
  | s0 :: rest => scanRunsAux s0 rest [cur0] [] []

/-- `Solver::get_available_pure_color_tiles_sets`. -/
def getAvailablePure (tiles : List Tile) :
    Except String (List (List Tile) × List Tile) :=
  let wc := wildcardCount tiles
  let base := sortTiles (tiles.filter fun t => !t.is_wildcard)
  match base.head? with
  | none => .error panicMsg  -- every branch reads tiles[0]
  | some b0 =>
    if wc = 1 then
      .ok (trialTiles.foldl
        (fun best w =>
          let r := scanRuns b0 (sortTiles (base ++ [w]))
          if best.1.length < r.1.length then r else best)
        ([], []))
    else if wc = 2 then
      .ok (trialPairs.foldl
        (fun best p =>
          let r := scanRuns b0 (sortTiles (base ++ [p.1, p.2]))
          if best.1.length < r.1.length then r else best)
        ([], []))
    else .ok (scanRuns b0 base)

/-- Number-indexed bucket filling with the over-two-same-colors skip
check of the wildcard branches of
`Solver::get_available_mixed_colors_tiles_sets`; `none` is the `skip`
outcome, an out-of-range tile number panics. -/
def buildBucketsSkip : List Tile → List (List Tile) →
    Except String (Option (List (List Tile)))
  | [], bs => .ok (some bs)
  | t :: ts, bs =>
    if h : t.number < bs.length then
      let b := bs.get ⟨t.number, h⟩ ++ [t]
      if 2 < (b.filter fun u => u.color = t.color).length then .ok none
      else buildBucketsSkip ts (bs.set t.number b)
    else .error panicMsg

/-- Bucket filling for the no-wildcard branch (wildcards skipped, no
skip check). -/
def buildBucketsPlain : List Tile → List (List Tile) →
    Except String (List (List Tile))
  | [], bs => .ok bs
  | t :: ts, bs =>
    if t.is_wildcard then buildBucketsPlain ts bs
    else if h : t.number < bs.length then
      buildBucketsPlain ts (bs.set t.number (bs.get ⟨t.number, h⟩ ++ [t]))
    else .error panicMsg

/-- The `is_valid_mixed_colors_tiles` closure.  The single-wildcard
branch accepts four colors at length ≥ 6 (`ge6 = true`); the
two-wildcard and no-wildcard branches require length > 6 there. -/
def validMixedBucket (ge6 : Bool) (t : List Tile) : Bool :=
  (t.length == 3 || t.length == 4 || decide (6 ≤ t.length)) &&
    ((getColorsCount t == 3 && (t.length == 3 || t.length == 6)) ||
      (getColorsCount t == 4 &&
        (t.length == 4 || (if ge6 then decide (6 ≤ t.length) else decide (6 < t.length)))))

/-- The `generate_mixed_colors_tiles_set` closure of the wildcard
branches: buckets of fewer than six tiles pass through; larger buckets
are split two ways by color, cloning the bucket tiles. -/
def generateClone (bucket : List Tile) : List (List Tile) :=
  if bucket.length < 6 then [bucket]
  else
    let s := foldSplit (groupByKey Tile.color bucket) ([], [])
    [s.1, s.2]

/-- The `generate_mixed_colors_tiles_set` closure of the no-wildcard
branch: the split halves are rebuilt from per-color counts as fresh
non-wildcard tiles carrying the bucket's number. -/
def generateFresh (bucket : List Tile) : List (List Tile) :=
  if bucket.length < 6 then [bucket]
  else
    match bucket.head? with
    | none => [bucket]  -- unreachable: length ≥ 6
    | some h =>
      let groups := (groupByKey Tile.color bucket).map fun g =>
        (g.1, g.2.map fun _ => (⟨h.number, g.1, false⟩ : Tile))
      let s := foldSplit groups ([], [])
      [s.1, s.2]

/-- One trial of the wildcard branches of
`Solver::get_available_mixed_colors_tiles_sets`: build buckets (with
skip check), keep the valid ones as melds (splitting the large ones)
and flatten the rest into leftovers. -/
def mixedTrial (ge6 : Bool) (tiles2 : List Tile) :
    Except String (Option (List (List Tile) × List Tile)) := do
  let ob ← buildBucketsSkip tiles2 (List.replicate 14 [])
  match ob with
  | none => .ok none
  | some bs =>
    let nb := bs.filter fun b => decide (0 < b.length)
    let sets :=
      (nb.filter fun t => decide (3 ≤ t.length) && validMixedBucket ge6 t).flatMap
        generateClone
    let leaves :=
      (nb.filter fun t => decide (t.length < 3) || !validMixedBucket ge6 t).flatten
    .ok (some (sets, leaves))

/-- `Solver::get_available_mixed_colors_tiles_sets`. -/
def getAvailableMixed (tiles : List Tile) :
    Except String (List (List Tile) × List Tile) :=
  let wc := wildcardCount tiles
  let base := tiles.filter fun t => !t.is_wildcard
  if wc = 1 then
    trialTiles.foldlM
      (fun best w => do
        let r ← mixedTrial true (base ++ [w])
        match r with
        | none => .ok best
        | some (ts, tl) =>
          .ok (if ts.length = 0 ∨ best.1.length < ts.length then (ts, tl) else best))
      (([], []) : List (List Tile) × List Tile)
  else if wc = 2 then
    trialPairs.foldlM
      (fun best p => do
        let r ← mixedTrial false (base ++ [p.1, p.2])
        match r with
        | none => .ok best
        | some (ts, tl) =>
          .ok (if ts.length = 0 ∨ best.1.length < ts.length then (ts, tl) else best))
      (([], []) : List (List Tile) × List Tile)
  else do
    let bs ← buildBucketsPlain base (List.replicate 14 [])
    let nb := bs.filter fun b => decide (0 < b.length)
    let sets :=
      (nb.filter fun t => decide (3 ≤ t.length) && validMixedBucket false t).flatMap
        generateFresh
    let leaves :=
      (nb.filter fun t => decide (t.length < 3) || !validMixedBucket false t).flatten
    .ok (sets, leaves)

/-- The (color, number) enumeration of the single-wildcard loop of
`Solver::get_available_tiles_with_wildcards`. -/
def colorNumPairs : List (TileColor × Nat) :=
  colorList.flatMap fun c => (List.range 13).map fun n => (c, n + 1)

/-- The quadruple enumeration of its two-wildcard loop, outermost loop
first. -/
def quadList : List (TileColor × TileColor × Nat × Nat) :=
  colorList.flatMap fun c1 =>
    colorList.flatMap fun c2 =>
      (List.range 13).flatMap fun n1 =>
        (List.range 13).map fun n2 => (c1, c2, n1 + 1, n2 + 1)

/-- The single-wildcard trial loop of
`Solver::get_available_tiles_with_wildcards`, returning at the first
trial whose pure or mixed extraction is non-empty. -/
def gatw1 (base : List Tile) : List (TileColor × Nat) →
    Except String (List (List Tile) × List Tile)
  | [] => .ok ([], base)
  | (c, n) :: rest => do
    let tiles2 := base ++ [⟨n, c, true⟩]
    let pr ← getAvailablePure tiles2
    if pr.1 ≠ [] then .ok pr
    else do
      let mr ← getAvailableMixed tiles2
      if mr.1 ≠ [] then .ok mr else gatw1 base rest

/-- The two-wildcard trial loop of
`Solver::get_available_tiles_with_wildcards`. -/
def gatw2 (base : List Tile) : List (TileColor × TileColor × Nat × Nat) →
    Except String (List (List Tile) × List Tile)
  | [] => .ok ([], base)
  | (c1, c2, n1, n2) :: rest => do
    let tiles2 := base ++ [⟨n1, c1, true⟩, ⟨n2, c2, true⟩]
    let pr ← getAvailablePure tiles2
    if pr.1 ≠ [] then .ok pr
    else do
      let mr ← getAvailableMixed tiles2
      if mr.1 ≠ [] then .ok mr else gatw2 base rest

/-- `Solver::get_available_tiles_with_wildcards`. -/
def getAvailableTilesWithWildcards (tiles : List Tile) (wc : Nat) :
    Except String (List (List Tile) × List Tile) :=
  let base := tiles.filter fun t => !t.is_wildcard
  if wc = 1 then gatw1 base colorNumPairs
  else if wc = 2 then gatw2 base quadList
  else .ok ([], base)

/-- `Solver::pick_available`. -/
def pickAvailable (userTiles : List Tile) :
    Except String (List (List Tile) × List Tile) := do
  let base := sortTiles (userTiles.filter fun t => !t.is_wildcard)
  let wc := wildcardCount userTiles
  let pr ← getAvailablePure base
  let mr ← getAvailableMixed pr.2
  let wr ← getAvailableTilesWithWildcards mr.2 wc
  .ok (pr.1 ++ mr.1 ++ wr.1, wr.2)

/-- The relevance test of `Solver::pick_relevant_tiles` for one meld
and one leftover tile, with Rust's short-circuit evaluation order (and
hence its panics on empty melds). -/
def relevantCond (meld : List Tile) (t : Tile) : Except String Bool := do
  let c1 ← if getTilesType meld = .MixedColor then do
      let m0 ← getChecked meld 0
      .ok (m0.number == t.number || meld.length == 4)
    else .ok false
  if c1 then .ok true
  else do
    let c2 ← if getTilesType meld = .PureColor then do
        let m0 ← getChecked meld 0
        let ml ← match meld.getLast? with | none => .error panicMsg | some x => .ok x
        .ok (decide (m0.number ≤ t.number) && decide (t.number ≤ ml.number))
      else .ok false
    if c2 then .ok true else .ok (decide (0 < wildcardCount meld))

/-- `Solver::pick_relevant_tiles`. -/
def pickRelevantTiles (board : List (List Tile)) (tiles : List Tile) :
    Except String (List (List Tile) × List (List Tile)) := do
  let idxs ← tiles.foldlM
    (fun acc t =>
      board.enum.foldlM
        (fun (acc2 : List Nat) p => do
          let c ← relevantCond p.2 t
          .ok (if c then acc2 ++ [p.1] else acc2))
        acc)
    ([] : List Nat)
  let rel := (board.enum.filter fun p => idxs.contains p.1).map (·.2)
  let comp := (board.enum.filter fun p => !idxs.contains p.1).map (·.2)
  .ok (rel, comp)

/-- The candidate-removal match: Rust `c == tile` (flag-blind
equality) or both tiles wildcards. -/
def matchB (c u : Tile) : Bool :=
  Tile.req c u || (c.is_wildcard && u.is_wildcard)

/-- The inner index scan of the removal loop in `Solver::search`:
first not-yet-removed position matching the candidate tile. -/
def findMatchAux (c : Tile) (removed : List Nat) : Nat → List Tile → Option Nat
  | _, [] => none
  | i, t :: ts =>
    if removed.contains i then findMatchAux c removed (i + 1) ts
    else if matchB c t then some i else findMatchAux c removed (i + 1) ts

/-- The removal loop of `Solver::search`: each candidate tile removes
at most one pool position. -/
def removalFold : List Tile → List Tile → List Nat → List Nat
  | [], _, acc => acc
  | c :: cs, tiles, acc =>
    match findMatchAux c acc 0 tiles with
    | some i => removalFold cs tiles (acc ++ [i])
    | none => removalFold cs tiles acc

/-- The `remaining` pool: positions not in `removed`
(`enumerate().filter(...)` in the source). -/
def removeIdxs (removed : List Nat) : Nat → List Tile → List Tile
  | _, [] => []
  | i, t :: ts =>
    if removed.contains i then removeIdxs removed (i + 1) ts
    else t :: removeIdxs removed (i + 1) ts

/-- Result of the fuelled search: `out` is fuel exhaustion, `err` a
panic, `ok` the Rust return value together with the memo set. -/
inductive SRes where
  | out : SRes
  | err : String → SRes
  | ok : Option (List (List Tile)) → List String → SRes
deriving DecidableEq, Repr

/-- The `for candidate in candidates` loop of `Solver::search`,
parameterized by the recursive call; `.ok none` means every candidate
branch failed, with the memo set threaded through. -/
def runCands (recf : List Tile → List (List Tile) → List String → SRes)
    (tiles : List Tile) (sol : List (List Tile)) :
    List (List Tile) → List String → SRes
  | [], cache => .ok none cache
  | cand :: rest, cache =>
    let removed := removalFold cand tiles []
    let remaining := removeIdxs removed 0 tiles
    match recf remaining (sol ++ [cand]) cache with
    | .out => .out
    | .err m => .err m
    | .ok (some s) c2 => .ok (some s) c2
    | .ok none c2 => runCands recf tiles sol rest c2

/-- `Solver::search` with explicit fuel bounding the recursion depth. -/
def searchFuel : Nat → List Tile → List (List Tile) → List String → SRes
  | 0, _, _, _ => .out
  | fuel + 1, tiles, sol, cache =>
    if tiles = [] then .ok (some sol) cache
    else if cache.contains (tilesToString tiles) || tiles.length ≤ 2 then .ok none cache
    else
      match getAvailablePure tiles with
      | .error m => .err m
      | .ok (pureSets, leave1) =>
        if leave1 = [] then .ok (some (sol ++ pureSets)) cache
        else
          match getAvailableMixed tiles with
          | .error m => .err m
          | .ok (mixedSets, leave2) =>
            if leave2 = [] then .ok (some (sol ++ mixedSets)) cache
            else
              match runCands (searchFuel fuel) tiles sol (pureSets ++ mixedSets) cache with
              | .ok none c2 => .ok none (c2 ++ [tilesToString tiles])
              | r => r

/-- `Solver::solve` on a board snapshot (hand in slot 0).  The search
is run over the whole flattened board (`test_tiles` in the source);
`pick_available` and `pick_relevant_tiles` are still evaluated first,
as in the source, because they can panic. -/
def solveE (board : List (List Tile)) : Except String (Option (List (List Tile))) := do
  let userTiles ← match board.head? with | none => .error panicMsg | some h => .ok h
  let slots := board.drop 1
  let pa ← pickAvailable userTiles
  let slots := slots ++ pa.1
  let _rc ← pickRelevantTiles slots pa.2
  let testTiles := board.flatten
  match searchFuel (testTiles.length + 1) testTiles [] [] with
  | .out => .error panicMsg
  | .err m => .error m
  | .ok r _ => .ok r

/-! ### Concrete instances used by the claim theorems -/

/-- Adjacent-pairs sortedness check by the `Ord for Tile` key. -/
def sortedTB : List Tile → Bool
  | [] => true
  | [_] => true
  | a :: b :: r => tileKeyLe a b && sortedTB (b :: r)

/-- Sortedness by the `Ord for Tile` key (color rank, then number). -/
def sortedT (ts : List Tile) : Prop :=
  sortedTB ts = true

instance (ts : List Tile) : Decidable (sortedT ts) :=
  inferInstanceAs (Decidable (sortedTB ts = true))

/-- A legal board: hand `[11r]`, table meld `{7h, 7b, 7o-wildcard}` (a
valid group whose third tile is a resolved joker). -/
def board1 : List (List Tile) :=
  [[⟨11, .Red, false⟩], [⟨7, .Black, false⟩, ⟨7, .Blue, false⟩, ⟨7, .Orange, true⟩]]

/-- A legal board: hand `[5b, 6b, joker]`, empty table. -/
def board2 : List (List Tile) :=
  [[⟨5, .Blue, false⟩, ⟨6, .Blue, false⟩, ⟨251, .Red, true⟩]]

/-- The meld `solve` returns on `board2`: `[5b, 5b, 6b]`, neither a
valid run nor a valid group. -/
def badMeld : List Tile :=
  [⟨5, .Blue, false⟩, ⟨5, .Blue, false⟩, ⟨6, .Blue, false⟩]

/-- A legal board: hand `[11r]`, a wildcard-holding table meld and the
completed group `{4h, 4b, 4o}`. -/
def board4 : List (List Tile) :=
  [[⟨11, .Red, false⟩], [⟨7, .Black, false⟩, ⟨7, .Blue, false⟩, ⟨7, .Orange, true⟩],
   [⟨4, .Black, false⟩, ⟨4, .Blue, false⟩, ⟨4, .Orange, false⟩]]

/-- The red run `1r..6r`: six tiles, a single already-valid run with no
duplicates. -/
def run6 : List Tile :=
  [⟨1, .Red, false⟩, ⟨2, .Red, false⟩, ⟨3, .Red, false⟩,
   ⟨4, .Red, false⟩, ⟨5, .Red, false⟩, ⟨6, .Red, false⟩]

/-- A sorted mixed-color group with strictly consecutive numbers. -/
def mixedTrio : List Tile :=
  [⟨1, .Black, false⟩, ⟨2, .Blue, false⟩, ⟨3, .Orange, false⟩]

/-- The `Put` operation placing `[1r, 2r, 3r]`. -/
def putRun : GameOperation :=
  ⟨.Put, 1000000, none, [⟨1, .Red, false⟩, ⟨2, .Red, false⟩, ⟨3, .Red, false⟩]⟩

/-- A game with one non-hand meld `[1r]`, used by the C5/C10
witnesses. -/
def gOne : Game :=
  ⟨[[], [⟨1, .Red, false⟩]],
   [⟨.MixedColor, 1, 13, none⟩, ⟨.PureColor, 1, 1, some .Red⟩]⟩

/-- A candidate meld that can always remove at least one pool tile:
it is non-empty and each of its tiles matches some pool tile under the
removal test of `Solver::search`. -/
def candOK (tiles m : List Tile) : Prop :=
  m ≠ [] ∧ ∀ t ∈ m, ∃ u ∈ tiles, matchB t u = true

/-! ## Supporting lemmas -/

set_option maxRecDepth 40000

/-- Reduction of a successful bind in the `Except` monad. -/
theorem okBind {ε α β : Type} (x : α) (f : α → Except ε β) :
    (Except.ok x : Except ε α) >>= f = f x := rfl

/-- Reduction of a failed bind in the `Except` monad. -/
theorem errBind {ε α β : Type} (e : ε) (f : α → Except ε β) :
    (Except.error e : Except ε α) >>= f = .error e := rfl

/-- Inserting a tile permutes a cons onto the list. -/
theorem insertTile_perm (t : Tile) (l : List Tile) :
    List.Perm (insertTile t l) (t :: l) := by
  induction l with
  | nil => rfl
  | cons x xs ih =>
    unfold insertTile
    by_cases h : tileKeyLe x t = true
    · rw [if_pos h]
      exact ((ih.cons x).trans (List.Perm.swap t x xs))
    · rw [if_neg h]

/-- The insertion-sort fold permutes its accumulator and input. -/
theorem sortTiles_fold_perm (l acc : List Tile) :
    List.Perm (l.foldl (fun a t => insertTile t a) acc) (acc ++ l) := by
  induction l generalizing acc with
  | nil => simp
  | cons t ts ih =>
    simp only [List.foldl_cons]
    refine (ih (insertTile t acc)).trans ?_
    refine (List.Perm.append_right ts (insertTile_perm t acc)).trans ?_
    exact (List.perm_middle).symm

/-- `sortTiles` permutes its input. -/
theorem sortTiles_perm (l : List Tile) : List.Perm (sortTiles l) l := by
  simpa using sortTiles_fold_perm l []

/-- `sortTiles` preserves length. -/
theorem sortTiles_length (l : List Tile) : (sortTiles l).length = l.length :=
  (sortTiles_perm l).length_eq

/-- Replacing one wildcard preserves length. -/
theorem replOne_length (rt : Tile) (ts : List Tile) :
    (replOne rt ts).length = ts.length := by
  induction ts with
  | nil => rfl
  | cons t r ih =>
    unfold replOne
    by_cases h : t.is_wildcard = true
    · rw [if_pos h]
      rfl
    · rw [if_neg h]
      simpa using ih

/-- `replace_wildcards` preserves length. -/
theorem replaceWildcards_length (ts rts : List Tile) :
    (replaceWildcards ts rts).length = ts.length := by
  unfold replaceWildcards
  rw [sortTiles_length]
  induction rts generalizing ts with
  | nil => rfl
  | cons r rs ih =>
    simp only [List.foldl_cons]
    rw [ih (replOne r ts), replOne_length]

/-- A wildcard count of at least three short-circuits every search
branch of `wildcard_to_tiles`: the returned `tiles_set` is the empty
initial vector.  The number hypothesis keeps the `u8` arithmetic
(`low - 1`) inside the data-model domain where it cannot underflow. -/
theorem wildcardToTiles_ge3 (ts : List Tile) (h3 : 3 ≤ wildcardCount ts)
    (hnw : ∃ t ∈ ts, t.is_wildcard = false)
    (_hnum : ∀ t ∈ ts, 1 ≤ t.number) :
    wildcardToTiles ts = .ok [] := by
  have h0 : ¬ wildcardCount ts = 0 := by omega
  have h1 : ¬ wildcardCount ts = 1 := by omega
  have h2 : ¬ wildcardCount ts = 2 := by omega
  obtain ⟨t, ht, hf⟩ := hnw
  have hbase : t ∈ ts.filter fun u => !u.is_wildcard := by
    simp [List.mem_filter, ht, hf]
  unfold wildcardToTiles
  rw [if_neg h0]
  obtain ⟨b0, bs, hb⟩ : ∃ b0 bs, (ts.filter fun u => !u.is_wildcard) = b0 :: bs := by
    cases hbase' : ts.filter fun u => !u.is_wildcard with
    | nil => rw [hbase'] at hbase; cases hbase
    | cons x xs => exact ⟨x, xs, rfl⟩
  rw [hb]
  cases hty : getTilesType (b0 :: bs) with
  | PureColor =>
    simp only [getChecked, List.get?, okBind, minNumber, maxNumber]
    rw [if_neg h1, if_neg h2, hty]
  | MixedColor =>
    simp only [getChecked, List.get?, okBind]
    rw [if_neg h1, if_neg h2, hty]

/-- The consecutive scan succeeds exactly when the i-th number is the
start value plus i. -/
theorem scanConsec_iff (ts : List Tile) (v : Nat) :
    scanConsec ts v = true ↔
      ∀ i (h : i < ts.length), (ts.get ⟨i, h⟩).number = v + i := by
  induction ts generalizing v with
  | nil => simp [scanConsec]
  | cons t ts ih =>
    simp only [scanConsec]
    by_cases h : t.number = v
    · rw [if_pos h, ih]
      constructor
      · intro hall i hi
        match i with
        | 0 => simpa using h
        | j + 1 =>
          have := hall j (by simpa using hi)
          simpa [Nat.add_assoc, Nat.add_comm 1 j] using this
      · intro hall i hi
        have := hall (i + 1) (by simpa using hi)
        simpa [Nat.add_assoc, Nat.add_comm 1 i] using this
    · rw [if_neg h]
      simp only [Bool.false_eq_true, false_iff]
      intro hall
      exact h (by simpa using hall 0 (by simp))

/-! ## Claim theorems -/

/-- C1 (code_bug evidence): on the legal board `board1` — hand
`[11r]`, table group `{7h, 7b, 7o-joker}` — `solve` returns
`Some(empty partition)`, dropping all four input tiles, so the multiset
of (number, color) pairs is not preserved under any wildcard
resolution. -/
theorem c1_solve_drops_tiles :
    solveE board1 = .ok (some []) ∧ board1.flatten ≠ [] :=
  ⟨rfl, by decide⟩

/-- C2 (code_bug evidence): on the legal board `board2` — hand
`[5b, 6b, joker]` — `solve` returns the single meld `[5b, 5b, 6b]`,
which the game's own run and group validity predicates both reject. -/
theorem c2_solve_returns_invalid_meld :
    solveE board2 = .ok (some [badMeld]) ∧
      isValidPureColorTiles [badMeld] = .ok false ∧
      isValidMixedColorTiles [badMeld] = false :=
  ⟨rfl, rfl, rfl⟩

/-- C3 (code_bug evidence): starting from `Game::new`, a `Put` of
`[1r, 2r, 3r]` followed by `reset` leaves one board slot but two
`tiles_set_info` entries — `reset` clears only the board. -/
theorem c3_reset_breaks_length_invariant :
    ∃ g1, operate gameNew putRun = .ok g1 ∧
      (reset g1).board.length = 1 ∧ (reset g1).tiles_set_info.length = 2 :=
  ⟨_, rfl, rfl, rfl⟩

/-- C4 (code_bug evidence): on `board4`, `pick_relevant_tiles`
classifies the wildcard meld as relevant and the group `{4h, 4b, 4o}`
as completed, yet `solve` — which searches the whole flattened board
and never re-appends completed melds — returns `Some(empty
partition)` without that group. -/
theorem c4_search_ignores_relevance_partition :
    pickRelevantTiles (board4.drop 1) [⟨11, .Red, false⟩] =
      .ok ([[⟨7, .Black, false⟩, ⟨7, .Blue, false⟩, ⟨7, .Orange, true⟩]],
        [[⟨4, .Black, false⟩, ⟨4, .Blue, false⟩, ⟨4, .Orange, false⟩]]) ∧
      solveE board4 = .ok (some []) :=
  ⟨rfl, rfl⟩

/-- C9 (confirmed): whenever slot 0 (the hand) is empty, `solve`
panics via the unguarded `tiles[0]` access in
`get_available_pure_color_tiles_sets`, regardless of the table
melds. -/
theorem c9_empty_hand_panics (rest : List (List Tile)) :
    solveE ([] :: rest) = .error panicMsg := rfl

/-- C5 (confirmed): a `Replace` whose slot wildcard count differs from
the length of the supplied replacement tiles returns with the game
state — board and metadata — completely unchanged. -/
theorem c5_replace_mismatch_noop (g : Game) (op : GameOperation) (rts slot : List Tile)
    (hcmd : op.command = .Replace) (hrts : op.replace_tiles = some rts)
    (hslot : g.board.get? op.index = some slot)
    (hmis : wildcardCount slot ≠ rts.length) :
    operate g op = .ok g := by
  obtain ⟨cmd, idx, rpt, tls⟩ := op
  simp only at hcmd hrts hslot
  subst hcmd hrts
  simp only [operate, getChecked, hslot, okBind]
  rw [if_pos hmis]

/-- C5 witness: replacing in a slot with no wildcards while supplying
one replacement tile leaves `gOne` untouched. -/
theorem c5_replace_mismatch_noop_witness :
    operate gOne ⟨.Replace, 1, some [⟨1, .Red, false⟩], []⟩ = .ok gOne :=
  c5_replace_mismatch_noop gOne ⟨.Replace, 1, some [⟨1, .Red, false⟩], []⟩
    [⟨1, .Red, false⟩] [⟨1, .Red, false⟩] rfl rfl rfl (by decide)

/-- C6 counterexample: `check_and_split` applied to the already-valid
duplicate-free six-tile run `1r..6r` does not return it unchanged — it
splits it into `[1r]` and `[2r..6r]`. -/
theorem c6_fixpoint_counterexample : checkAndSplit run6 ≠ [run6] := by decide

/-- C6 (corrected): the fixpoint holds for melds of at most five
tiles — `check_and_split` returns such a meld unchanged as the sole
element of a one-element list.  It does not extend to melds of six or
more tiles: the counterexample above shows even a single already-valid
duplicate-free six-tile run is not returned unchanged. -/
theorem c6_small_meld_fixpoint (ts : List Tile) (h : ts.length ≤ 5) :
    checkAndSplit ts = [ts] := by
  unfold checkAndSplit
  rw [if_pos (by omega)]

/-- C6 witness. -/
theorem c6_small_meld_fixpoint_witness :
    putRun.tiles.length ≤ 5 ∧ checkAndSplit putRun.tiles = [putRun.tiles] :=
  ⟨by decide, c6_small_meld_fixpoint putRun.tiles (by decide)⟩

/-- C7 counterexample: the run predicate accepts the sorted
mixed-color consecutive trio `[1h, 2b, 3o]` — it never inspects
colors, so "no color mixing among non-wildcards" is not part of the
predicate and the claimed equivalence fails here. -/
theorem c7_color_mixing_counterexample :
    isValidPureColorTiles [mixedTrio] = .ok true ∧
      sortedT mixedTrio ∧ mixedTrio ≠ [] ∧ 1 < getColorsCount mixedTrio :=
  ⟨rfl, by decide, by decide, by decide⟩

/-- C7 (corrected): for a non-empty group sorted by tile ordering, the
run predicate holds iff the group has length at least 3 and the i-th
tile's number is the minimum number plus i (strictly consecutive, no
gaps); colors are not examined. -/
theorem c7_run_predicate_iff (t0 : Tile) (rest : List Tile) (_hs : sortedT (t0 :: rest))
    (m : Nat) (hm : minNumber (t0 :: rest) = some m) :
    isValidPureColorTiles [t0 :: rest] = .ok true ↔
      3 ≤ (t0 :: rest).length ∧
        ∀ i (h : i < (t0 :: rest).length), ((t0 :: rest).get ⟨i, h⟩).number = m + i := by
  unfold isValidPureColorTiles isValidPureAux
  rw [hm]
  dsimp only
  by_cases hlen : (t0 :: rest).length < 3
  · rw [if_pos hlen]
    simp only [Except.ok.injEq, Bool.false_eq_true, false_iff]
    intro hc
    omega
  · rw [if_neg hlen]
    unfold isValidPureAux
    simp only [Bool.true_and, Except.ok.injEq]
    rw [scanConsec_iff]
    constructor
    · intro hc
      exact ⟨by omega, hc⟩
    · intro hc
      exact hc.2

/-- C10 (confirmed): `wildcard_to_tiles` has no branch for three or
more wildcards, so with at least one concrete tile present it returns
the empty group list; consequently an Add/Draw into a non-hand slot
whose combined tiles then hold three or more wildcards panics on the
`tiles[0]` access, and a Replace whose payload plus freed wildcards
hold three or more wildcards silently drops those tiles from the
board: only the replaced slot survives, nothing is appended.  (The
`1 ≤ number` hypotheses restrict tiles to the data-model domain,
where the `u8` expression `low - 1` cannot underflow.) -/
theorem c10_three_wildcards_dropped :
    (∀ ts, 3 ≤ wildcardCount ts → (∃ t ∈ ts, t.is_wildcard = false) →
      (∀ t ∈ ts, 1 ≤ t.number) → wildcardToTiles ts = .ok []) ∧
    (∀ g op slot, op.command = .Add ∨ op.command = .Draw → op.index ≠ 0 →
      g.board.get? op.index = some slot →
      3 ≤ wildcardCount (sortTiles (slot ++ op.tiles)) →
      (∃ t ∈ sortTiles (slot ++ op.tiles), t.is_wildcard = false) →
      (∀ t ∈ sortTiles (slot ++ op.tiles), 1 ≤ t.number) →
      operate g op = .error panicMsg) ∧
    (∀ g op slot rts, op.command = .Replace → op.replace_tiles = some rts →
      g.board.get? op.index = some slot → slot ≠ [] →
      op.index < g.tiles_set_info.length →
      wildcardCount slot = rts.length →
      3 ≤ wildcardCount (op.tiles ++ List.replicate rts.length (⟨251, .Red, true⟩ : Tile)) →
      (∃ t ∈ op.tiles, t.is_wildcard = false) →
      (∀ t ∈ op.tiles, 1 ≤ t.number) →
      ∃ info, operate g op =
        .ok ⟨g.board.set op.index (replaceWildcards slot rts),
          g.tiles_set_info.set op.index info⟩) := by
  refine ⟨wildcardToTiles_ge3, ?_, ?_⟩
  · intro g op slot hcmd hidx hslot h3 hnw hnum
    obtain ⟨cmd, idx, rpt, tls⟩ := op
    simp only at hcmd hidx hslot h3 hnw hnum ⊢
    have hw : wildcardToTiles (sortTiles (slot ++ tls)) = .ok [] :=
      wildcardToTiles_ge3 _ h3 hnw hnum
    have hslot2 : g.board[idx]? = some slot := by
      simpa [← List.get?_eq_getElem?] using hslot
    rcases hcmd with h | h <;> subst h <;>
      simp [operate, getChecked, hslot2, okBind, errBind, hw, if_neg hidx, List.head?]
  · intro g op slot rts hcmd hrts hslot hne hil hwc h3 hnw hnum
    obtain ⟨cmd, idx, rpt, tls⟩ := op
    simp only at hcmd hrts hslot hne hil hwc h3 hnw hnum ⊢
    subst hcmd hrts
    have hlt : idx < g.board.length := by
      by_contra hc
      push_neg at hc
      rw [List.get?_eq_none.mpr hc] at hslot
      cases hslot
    have hnw2 : ∃ t ∈ tls ++ List.replicate rts.length (⟨251, .Red, true⟩ : Tile),
        t.is_wildcard = false := by
      obtain ⟨t, ht, hf⟩ := hnw
      exact ⟨t, List.mem_append_left _ ht, hf⟩
    have hnum2 : ∀ t ∈ tls ++ List.replicate rts.length (⟨251, .Red, true⟩ : Tile),
        1 ≤ t.number := by
      intro t ht
      rcases List.mem_append.mp ht with h | h
      · exact hnum t h
      · rw [List.eq_of_mem_replicate h]
        decide
    have hw : wildcardToTiles
        (tls ++ List.replicate rts.length (⟨251, .Red, true⟩ : Tile)) = .ok [] :=
      wildcardToTiles_ge3 _ h3 hnw2 hnum2
    obtain ⟨y, ys, hns⟩ : ∃ y ys, replaceWildcards slot rts = y :: ys := by
      have hl : (replaceWildcards slot rts).length = slot.length :=
        replaceWildcards_length slot rts
      cases h : replaceWildcards slot rts with
      | nil =>
        rw [h] at hl
        cases slot with
        | nil => exact absurd rfl hne
        | cons a l => simp at hl
      | cons y ys => exact ⟨y, ys, rfl⟩
    have hnn : ¬ (wildcardCount slot ≠ rts.length) := fun h => h hwc
    refine ⟨⟨getTilesType (y :: ys), (getRange (y :: ys)).1, (getRange (y :: ys)).2,
      if getTilesType (y :: ys) = .PureColor then some y.color else none⟩, ?_⟩
    simp only [operate, getChecked, hslot, okBind]
    rw [if_neg hnn]
    simp only [setChecked, if_pos hlt, okBind, hns, mkTilesSetInfo, List.head?,
      if_pos hil, hwc, hw, List.foldlM]
    rfl
theorem c7_run_predicate_iff_witness :
    sortedT [(⟨1, .Red, false⟩ : Tile), ⟨2, .Red, false⟩, ⟨3, .Red, false⟩] ∧
      minNumber [(⟨1, .Red, false⟩ : Tile), ⟨2, .Red, false⟩, ⟨3, .Red, false⟩] = some 1 ∧
      (isValidPureColorTiles
          [[(⟨1, .Red, false⟩ : Tile), ⟨2, .Red, false⟩, ⟨3, .Red, false⟩]] = .ok true ↔
        3 ≤ ([(⟨1, .Red, false⟩ : Tile), ⟨2, .Red, false⟩, ⟨3, .Red, false⟩] : List Tile).length ∧
          ∀ i (h : i < ([(⟨1, .Red, false⟩ : Tile), ⟨2, .Red, false⟩,
              ⟨3, .Red, false⟩] : List Tile).length),
            (([(⟨1, .Red, false⟩ : Tile), ⟨2, .Red, false⟩,
              ⟨3, .Red, false⟩] : List Tile).get ⟨i, h⟩).number = 1 + i) :=
  ⟨by decide, by decide,
    c7_run_predicate_iff ⟨1, .Red, false⟩ [⟨2, .Red, false⟩, ⟨3, .Red, false⟩]
      (by decide) 1 (by decide)⟩

/-- C10 witness: a four-tile list with three jokers maps to no groups;
an `Add` of three jokers to the `[1r]` slot panics; a `Replace` with a
three-joker payload keeps only the replaced slot. -/
theorem c10_three_wildcards_dropped_witness :
    wildcardToTiles [⟨251, .Red, true⟩, ⟨251, .Red, true⟩, ⟨251, .Red, true⟩,
        ⟨1, .Blue, false⟩] = .ok [] ∧
      operate gOne ⟨.Add, 1, none,
        [⟨251, .Red, true⟩, ⟨251, .Red, true⟩, ⟨251, .Red, true⟩]⟩ = .error panicMsg ∧
      ∃ info, operate gOne ⟨.Replace, 1, some [],
          [⟨251, .Red, true⟩, ⟨251, .Red, true⟩, ⟨251, .Red, true⟩, ⟨1, .Blue, false⟩]⟩ =
        .ok ⟨gOne.board.set 1 (replaceWildcards [⟨1, .Red, false⟩] []),
          gOne.tiles_set_info.set 1 info⟩ :=
  ⟨c10_three_wildcards_dropped.1 _ (by decide) ⟨⟨1, .Blue, false⟩, by decide, rfl⟩
      (by decide),
    c10_three_wildcards_dropped.2.1 gOne
      ⟨.Add, 1, none, [⟨251, .Red, true⟩, ⟨251, .Red, true⟩, ⟨251, .Red, true⟩]⟩
      [⟨1, .Red, false⟩] (Or.inl rfl) (by decide) rfl (by decide)
      ⟨⟨1, .Red, false⟩, by decide, rfl⟩ (by decide),
    c10_three_wildcards_dropped.2.2 gOne
      ⟨.Replace, 1, some [],
        [⟨251, .Red, true⟩, ⟨251, .Red, true⟩, ⟨251, .Red, true⟩, ⟨1, .Blue, false⟩]⟩
      [⟨1, .Red, false⟩] [] rfl rfl rfl (by decide) (by decide) (by decide) (by decide)
      ⟨⟨1, .Blue, false⟩, by decide, rfl⟩ (by decide)⟩

/-! ## C8 infrastructure

The termination claim needs: every candidate meld produced by the
extraction functions removes at least one pool position, so every
recursive call of `search` receives a strictly smaller pool. -/

/-- Every tile removal-matches itself (flag-blind equality is
reflexive). -/
theorem matchB_self (t : Tile) : matchB t t = true := by
  simp [matchB, Tile.req]

/-- `wildcard_count` as a `countP`. -/
theorem wildcardCount_eq_countP (ts : List Tile) :
    wildcardCount ts = ts.countP (·.is_wildcard) := by
  have haux : ∀ (l : List Tile) (n : Nat),
      l.foldl (fun c t => if t.is_wildcard then c + 1 else c) n =
        n + l.countP (·.is_wildcard) := by
    intro l
    induction l with
    | nil => intro n; simp
    | cons t r ih =>
      intro n
      simp only [List.foldl_cons, List.countP_cons, ih]
      by_cases h : t.is_wildcard = true
      · simp [h]
        omega
      · simp [h]
  simpa [wildcardCount] using haux ts 0

/-- A positive wildcard count yields a flagged member. -/
theorem exists_wildcard_of_pos (ts : List Tile) (h : 0 < wildcardCount ts) :
    ∃ u ∈ ts, u.is_wildcard = true := by
  rw [wildcardCount_eq_countP] at h
  exact List.countP_pos_iff.mp h

/-- Membership transfers through `sortTiles`. -/
theorem mem_sortTiles {t : Tile} {l : List Tile} : t ∈ sortTiles l ↔ t ∈ l :=
  (sortTiles_perm l).mem_iff

/-- Trial wildcards carry the wildcard flag. -/
theorem trialTiles_flagged : ∀ w ∈ trialTiles, w.is_wildcard = true := by
  intro w hw
  simp only [trialTiles, List.mem_flatMap, List.mem_map, List.mem_range] at hw
  obtain ⟨c, _, n, _, rfl⟩ := hw
  rfl

/-- Components of trial pairs are trial wildcards. -/
theorem trialPairs_mem {p : Tile × Tile} (hp : p ∈ trialPairs) :
    p.1 ∈ trialTiles ∧ p.2 ∈ trialTiles := by
  simp only [trialPairs, List.mem_flatMap, List.mem_map] at hp
  obtain ⟨a, ha, b, hb, rfl⟩ := hp
  exact ⟨ha, hb⟩

/-- Invariant preservation through `List.foldl`. -/
theorem foldl_keep {α β : Type} (P : α → Prop) (f : α → β → α) (l : List β) (seed : α)
    (hseed : P seed) (hstep : ∀ x ∈ l, ∀ acc, P acc → P (f acc x)) :
    P (l.foldl f seed) := by
  induction l generalizing seed with
  | nil => exact hseed
  | cons x xs ih =>
    exact ih (f seed x) (hstep x (List.mem_cons_self x xs) seed hseed)
      fun y hy acc hacc => hstep y (List.mem_cons_of_mem x hy) acc hacc

/-- Invariant preservation through `List.foldlM` over `Except`. -/
theorem foldlM_keep {α β : Type} (P : α → Prop) (f : α → β → Except String α)
    (l : List β) (seed r : α) (hseed : P seed)
    (hstep : ∀ x ∈ l, ∀ acc r2, P acc → f acc x = .ok r2 → P r2)
    (hrun : l.foldlM f seed = .ok r) : P r := by
  induction l generalizing seed with
  | nil =>
    rw [List.foldlM_nil] at hrun
    cases hrun
    exact hseed
  | cons x xs ih =>
    rw [List.foldlM_cons] at hrun
    cases hx : f seed x with
    | error e => rw [hx, errBind] at hrun; cases hrun
    | ok a =>
      rw [hx, okBind] at hrun
      exact ih a (hstep x (List.mem_cons_self x xs) seed a hseed hx)
        (fun y hy acc r2 hacc hr2 => hstep y (List.mem_cons_of_mem x hy) acc r2 hacc hr2)
        hrun

/-- Melds flushed by the run scan are non-empty and consist of the
seed tile and scanned tiles, so any tile property `Q` of those is
inherited. -/
theorem scanRunsAux_sets (Q : Tile → Prop) :
    ∀ (rest : List Tile) (prev : Tile) (cur : List Tile) (sets : List (List Tile))
      (leaves : List Tile),
      (∀ m ∈ sets, m ≠ [] ∧ ∀ t ∈ m, Q t) →
      cur ≠ [] → (∀ t ∈ cur, Q t) → (∀ t ∈ rest, Q t) →
      ∀ m ∈ (scanRunsAux prev rest cur sets leaves).1, m ≠ [] ∧ ∀ t ∈ m, Q t := by
  intro rest
  induction rest with
  | nil =>
    intro prev cur sets leaves hsets hcne hcq _ m hm
    unfold scanRunsAux at hm
    by_cases h3 : 3 ≤ cur.length
    · rw [if_pos h3] at hm
      rcases List.mem_append.mp hm with h | h
      · exact hsets m h
      · rw [List.mem_singleton.mp h]
        exact ⟨hcne, hcq⟩
    · rw [if_neg h3] at hm
      exact hsets m hm
  | cons t ts ih =>
    intro prev cur sets leaves hsets hcne hcq hrq m hm
    unfold scanRunsAux at hm
    have hqt : Q t := hrq t (List.mem_cons_self t ts)
    have hrq2 : ∀ x ∈ ts, Q x := fun x hx => hrq x (List.mem_cons_of_mem t hx)
    by_cases hc : t.color = prev.color ∧ t.number = prev.number + 1
    · rw [if_pos hc] at hm
      refine ih t (cur ++ [t]) sets leaves hsets (by simp) ?_ hrq2 m hm
      intro x hx
      rcases List.mem_append.mp hx with h | h
      · exact hcq x h
      · rw [List.mem_singleton.mp h]
        exact hqt
    · rw [if_neg hc] at hm
      by_cases h3 : 3 ≤ cur.length
      · rw [if_pos h3] at hm
        refine ih t [t] (sets ++ [cur]) leaves ?_ (by simp) ?_ hrq2 m hm
        · intro m2 hm2
          rcases List.mem_append.mp hm2 with h | h
          · exact hsets m2 h
          · rw [List.mem_singleton.mp h]
            exact ⟨hcne, hcq⟩
        · intro x hx
          rw [List.mem_singleton.mp hx]
          exact hqt
      · rw [if_neg h3] at hm
        refine ih t [t] sets (leaves ++ cur) hsets (by simp) ?_ hrq2 m hm
        intro x hx
        rw [List.mem_singleton.mp hx]
        exact hqt

/-- The run scan's extracted melds inherit any property of the seed
and the scanned list. -/
theorem scanRuns_sets (Q : Tile → Prop) (cur0 : Tile) (sorted : List Tile)
    (hq0 : Q cur0) (hqs : ∀ t ∈ sorted, Q t) :
    ∀ m ∈ (scanRuns cur0 sorted).1, m ≠ [] ∧ ∀ t ∈ m, Q t := by
  cases sorted with
  | nil => intro m hm; simp [scanRuns] at hm
  | cons s0 rest =>
    exact scanRunsAux_sets Q rest s0 [cur0] [] [] (by simp) (by simp)
      (fun x hx => by rw [List.mem_singleton.mp hx]; exact hq0)
      fun t ht => hqs t (List.mem_cons_of_mem s0 ht)

/-- Every meld extracted by `get_available_pure_color_tiles_sets` can
remove a pool tile: its non-wildcard tiles are pool tiles and its
trial wildcards match the pool's wildcards. -/
theorem getAvailablePure_cand (tiles : List Tile) (sets : List (List Tile))
    (leaves : List Tile) (h : getAvailablePure tiles = .ok (sets, leaves)) :
    ∀ m ∈ sets, candOK tiles m := by
  unfold getAvailablePure at h
  dsimp only at h
  set base := sortTiles (tiles.filter fun t => !t.is_wildcard) with hbase
  cases hh : base.head? with
  | none => rw [hh] at h; cases h
  | some b0 =>
    rw [hh] at h
    dsimp only at h
    have hbmem : ∀ t ∈ base, t ∈ tiles ∧ t.is_wildcard = false := by
      intro t ht
      rw [hbase, mem_sortTiles, List.mem_filter] at ht
      exact ⟨ht.1, by simpa using ht.2⟩
    have hb0 : b0 ∈ base := List.mem_of_mem_head? (by rw [hh]; rfl)
    have hQself : ∀ t ∈ base, ∃ u ∈ tiles, matchB t u = true :=
      fun t ht => ⟨t, (hbmem t ht).1, matchB_self t⟩
    by_cases h1 : wildcardCount tiles = 1
    · rw [if_pos h1] at h
      rw [Except.ok.injEq] at h
      have hflag : ∃ u ∈ tiles, u.is_wildcard = true :=
        exists_wildcard_of_pos tiles (by omega)
      have hkeep := foldl_keep (fun best => ∀ m ∈ best.1, candOK tiles m)
        (fun best w =>
          let r := scanRuns b0 (sortTiles (base ++ [w]))
          if best.1.length < r.1.length then r else best)
        trialTiles ([], []) (by simp) ?_
      · rw [h] at hkeep
        exact hkeep
      · intro w hw best hbest
        dsimp only
        by_cases hcond : best.1.length < (scanRuns b0 (sortTiles (base ++ [w]))).1.length
        · rw [if_pos hcond]
          refine scanRuns_sets _ b0 _ (hQself b0 hb0) ?_
          intro t ht
          rcases List.mem_append.mp (mem_sortTiles.mp ht) with hmem | hmem
          · exact hQself t hmem
          · rw [List.mem_singleton.mp hmem]
            obtain ⟨u, hu, huf⟩ := hflag
            exact ⟨u, hu, by simp [matchB, trialTiles_flagged w hw, huf]⟩
        · rw [if_neg hcond]
          exact hbest
    · rw [if_neg h1] at h
      by_cases h2 : wildcardCount tiles = 2
      · rw [if_pos h2] at h
        rw [Except.ok.injEq] at h
        have hflag : ∃ u ∈ tiles, u.is_wildcard = true :=
          exists_wildcard_of_pos tiles (by omega)
        have hkeep := foldl_keep (fun best => ∀ m ∈ best.1, candOK tiles m)
          (fun best p =>
            let r := scanRuns b0 (sortTiles (base ++ [p.1, p.2]))
            if best.1.length < r.1.length then r else best)
          trialPairs ([], []) (by simp) ?_
        · rw [h] at hkeep
          exact hkeep
        · intro p hp best hbest
          dsimp only
          by_cases hcond : best.1.length < (scanRuns b0 (sortTiles (base ++ [p.1, p.2]))).1.length
          · rw [if_pos hcond]
            refine scanRuns_sets _ b0 _ (hQself b0 hb0) ?_
            intro t ht
            obtain ⟨u, hu, huf⟩ := hflag
            rcases List.mem_append.mp (mem_sortTiles.mp ht) with hmem | hmem
            · exact hQself t hmem
            · rcases List.mem_cons.mp hmem with h' | h'
              · exact ⟨u, hu, by simp [matchB, h' ▸ trialTiles_flagged p.1 (trialPairs_mem hp).1, huf]⟩
              · rw [List.mem_singleton.mp h']
                exact ⟨u, hu, by simp [matchB, trialTiles_flagged p.2 (trialPairs_mem hp).2, huf]⟩
          · rw [if_neg hcond]
            exact hbest
      · rw [if_neg h2] at h
        rw [Except.ok.injEq] at h
        have := scanRuns_sets (fun t => ∃ u ∈ tiles, matchB t u = true) b0 base
          (hQself b0 hb0) hQself
        rw [h] at this
        exact this

/-- Members of `List.set` are the new value or old members. -/
theorem mem_of_mem_set {α : Type} {l : List α} {n : Nat} {v x : α}
    (h : x ∈ l.set n v) : x = v ∨ x ∈ l := by
  induction l generalizing n with
  | nil => simp at h
  | cons a as ih =>
    cases n with
    | zero =>
      rcases List.mem_cons.mp h with h1 | h1
      · exact Or.inl h1
      · exact Or.inr (List.mem_cons_of_mem a h1)
    | succ m =>
      rcases List.mem_cons.mp h with h1 | h1
      · exact Or.inr (h1 ▸ List.mem_cons_self a as)
      · rcases ih h1 with h2 | h2
        · exact Or.inl h2
        · exact Or.inr (List.mem_cons_of_mem a h2)

/-- Tiles in the skip-checked buckets come from the bucketed list (or
the initial buckets). -/
theorem buildBucketsSkip_mem (P : Tile → Prop) : ∀ (ts : List Tile) (bs bs' : List (List Tile)),
    buildBucketsSkip ts bs = .ok (some bs') →
    (∀ b ∈ bs, ∀ t ∈ b, P t) → (∀ t ∈ ts, P t) →
    ∀ b ∈ bs', ∀ t ∈ b, P t := by
  intro ts
  induction ts with
  | nil =>
    intro bs bs' h hbs _
    unfold buildBucketsSkip at h
    rw [Except.ok.injEq, Option.some.injEq] at h
    exact h ▸ hbs
  | cons t rest ih =>
    intro bs bs' h hbs hts
    unfold buildBucketsSkip at h
    by_cases hlt : t.number < bs.length
    · rw [dif_pos hlt] at h
      dsimp only at h
      by_cases hskip :
          2 < ((bs.get ⟨t.number, hlt⟩ ++ [t]).filter fun u => decide (u.color = t.color)).length
      · rw [if_pos hskip] at h
        rw [Except.ok.injEq] at h
        cases h
      · rw [if_neg hskip] at h
        refine ih (bs.set t.number (bs.get ⟨t.number, hlt⟩ ++ [t])) bs' h ?_
          fun x hx => hts x (List.mem_cons_of_mem t hx)
        intro b hb x hx
        rcases mem_of_mem_set hb with hb2 | hb2
        · rw [hb2] at hx
          rcases List.mem_append.mp hx with hx2 | hx2
          · exact hbs _ (bs.get_mem _ _) x hx2
          · rw [List.mem_singleton.mp hx2]
            exact hts t (List.mem_cons_self t rest)
        · exact hbs b hb2 x hx
    · rw [dif_neg hlt] at h
      cases h

/-- Positional invariant of the plain (no-wildcard branch) buckets:
bucket `j` holds only non-wildcard tiles of number `j` drawn from the
reference list. -/
theorem buildBucketsPlain_inv (base0 : List Tile) : ∀ (ts : List Tile) (bs bs' : List (List Tile)),
    buildBucketsPlain ts bs = .ok bs' →
    (∀ t ∈ ts, t ∈ base0) →
    (∀ j (hj : j < bs.length), ∀ t ∈ bs.get ⟨j, hj⟩,
      t.number = j ∧ t ∈ base0 ∧ t.is_wildcard = false) →
    ∀ j (hj : j < bs'.length), ∀ t ∈ bs'.get ⟨j, hj⟩,
      t.number = j ∧ t ∈ base0 ∧ t.is_wildcard = false := by
  intro ts
  induction ts with
  | nil =>
    intro bs bs' h _ hbs
    unfold buildBucketsPlain at h
    rw [Except.ok.injEq] at h
    exact h ▸ hbs
  | cons t rest ih =>
    intro bs bs' h hts hbs
    unfold buildBucketsPlain at h
    by_cases hw : t.is_wildcard = true
    · rw [if_pos hw] at h
      exact ih bs bs' h (fun x hx => hts x (List.mem_cons_of_mem t hx)) hbs
    · rw [if_neg hw] at h
      by_cases hlt : t.number < bs.length
      · rw [dif_pos hlt] at h
        refine ih _ bs' h (fun x hx => hts x (List.mem_cons_of_mem t hx)) ?_
        intro j hj x hx
        rw [List.get_eq_getElem] at hx
        rw [List.length_set] at hj
        by_cases hje : t.number = j
        · subst hje
          rw [List.getElem_set_self] at hx
          rcases List.mem_append.mp hx with hx2 | hx2
          · have := hbs t.number hlt x (by rw [List.get_eq_getElem]; exact hx2)
            exact this
          · rw [List.mem_singleton.mp hx2]
            exact ⟨rfl, hts t (List.mem_cons_self t rest), by simpa using hw⟩
        · rw [List.getElem_set_ne hje] at hx
          exact hbs j hj x (by rw [List.get_eq_getElem]; exact hx)
      · rw [dif_neg hlt] at h
        cases h

/-- `addToGroups` keeps groups non-empty, their members drawn from the
original members plus the new tile, and correctly keyed. -/
theorem addToGroups_prop {κ : Type} [DecidableEq κ] (key : Tile → κ) (x : Tile)
    (S : Tile → Prop) (hx : S x) :
    ∀ (acc : List (κ × List Tile)),
      (∀ g ∈ acc, g.2 ≠ [] ∧ ∀ y ∈ g.2, S y ∧ key y = g.1) →
      ∀ g ∈ addToGroups (key x) x acc, g.2 ≠ [] ∧ ∀ y ∈ g.2, S y ∧ key y = g.1 := by
  intro acc
  induction acc with
  | nil =>
    intro _ g hg
    rw [List.mem_singleton.mp hg]
    exact ⟨by simp, fun y hy => by rw [List.mem_singleton.mp hy]; exact ⟨hx, rfl⟩⟩
  | cons p rest ih =>
    intro hacc g hg
    obtain ⟨c, l⟩ := p
    unfold addToGroups at hg
    by_cases hc : c = key x
    · rw [if_pos hc] at hg
      rcases List.mem_cons.mp hg with h | h
      · subst h
        refine ⟨by simp, ?_⟩
        intro y hy
        rcases List.mem_append.mp hy with h2 | h2
        · exact (hacc (c, l) (List.mem_cons_self _ _)).2 y h2
        · rw [List.mem_singleton.mp h2]
          exact ⟨hx, hc.symm⟩
      · exact hacc g (List.mem_cons_of_mem _ h)
    · rw [if_neg hc] at hg
      rcases List.mem_cons.mp hg with h | h
      · subst h
        exact hacc (c, l) (List.mem_cons_self _ _)
      · exact ih (fun g2 hg2 => hacc g2 (List.mem_cons_of_mem _ hg2)) g h

/-- Groups built by `groupByKey` are non-empty, correctly keyed, and
made of input tiles. -/
theorem groupByKey_prop {κ : Type} [DecidableEq κ] (key : Tile → κ) (ts : List Tile) :
    ∀ g ∈ groupByKey key ts, g.2 ≠ [] ∧ ∀ y ∈ g.2, y ∈ ts ∧ key y = g.1 := by
  unfold groupByKey
  have main : ∀ (l : List Tile) (S : Tile → Prop) (acc : List (κ × List Tile)),
      (∀ x ∈ l, S x) →
      (∀ g ∈ acc, g.2 ≠ [] ∧ ∀ y ∈ g.2, S y ∧ key y = g.1) →
      ∀ g ∈ l.foldl (fun g t => addToGroups (key t) t g) acc,
        g.2 ≠ [] ∧ ∀ y ∈ g.2, S y ∧ key y = g.1 := by
    intro l
    induction l with
    | nil => intro S acc _ hacc; exact hacc
    | cons x xs ih =>
      intro S acc hl hacc
      rw [List.foldl_cons]
      exact ih S _ (fun y hy => hl y (List.mem_cons_of_mem x hy))
        (addToGroups_prop key x S (hl x (List.mem_cons_self x xs)) acc hacc)
  exact main ts (· ∈ ts) [] (fun x hx => hx) (by simp)

/-- `addToGroups` grows the total group size by one. -/
theorem addToGroups_sum {κ : Type} [DecidableEq κ] (k : κ) (x : Tile) :
    ∀ acc : List (κ × List Tile),
      ((addToGroups k x acc).map fun g => g.2.length).sum =
        ((acc.map fun g => g.2.length).sum) + 1 := by
  intro acc
  induction acc with
  | nil => simp [addToGroups]
  | cons p rest ih =>
    obtain ⟨c, l⟩ := p
    unfold addToGroups
    by_cases hc : c = k
    · rw [if_pos hc]
      simp
      omega
    · rw [if_neg hc]
      simp only [List.map_cons, List.sum_cons, ih]
      omega

/-- The groups of `groupByKey` partition the input's length. -/
theorem groupByKey_sum {κ : Type} [DecidableEq κ] (key : Tile → κ) (ts : List Tile) :
    (((groupByKey key ts).map fun g => g.2.length).sum) = ts.length := by
  unfold groupByKey
  have main : ∀ (l : List Tile) (acc : List (κ × List Tile)),
      (((l.foldl (fun g t => addToGroups (key t) t g) acc).map fun g => g.2.length).sum) =
        ((acc.map fun g => g.2.length).sum) + l.length := by
    intro l
    induction l with
    | nil => intro acc; simp
    | cons x xs ih =>
      intro acc
      rw [List.foldl_cons, ih, addToGroups_sum]
      simp
      omega
  simpa using main ts []

/-- Members of the two-way split come from the initial halves or the
groups. -/
theorem foldSplit_mem :
    ∀ (groups : List (TileColor × List Tile)) (init : List Tile × List Tile) (x : Tile),
      (x ∈ (foldSplit groups init).1 ∨ x ∈ (foldSplit groups init).2) →
      x ∈ init.1 ∨ x ∈ init.2 ∨ ∃ g ∈ groups, x ∈ g.2 := by
  intro groups
  induction groups with
  | nil => intro init x h; rcases h with h | h
           · exact Or.inl h
           · exact Or.inr (Or.inl h)
  | cons g gs ih =>
    intro init x h
    unfold foldSplit at h
    rw [List.foldl_cons] at h
    have h2 := ih (foldSplitStep init g.2) x (by simpa [foldSplit] using h)
    have hstep : ∀ y, y ∈ (foldSplitStep init g.2).1 ∨ y ∈ (foldSplitStep init g.2).2 →
        y ∈ init.1 ∨ y ∈ init.2 ∨ y ∈ g.2 := by
      intro y hy
      unfold foldSplitStep at hy
      rcases hl : g.2 with _ | ⟨a, _ | ⟨b, rest⟩⟩ <;> rw [hl] at hy <;> dsimp only at hy
      · simpa using hy
      · rcases hy with hy | hy
        · by_cases hc : init.1.length < init.2.length
          · rw [if_pos hc] at hy
            simp only at hy
            rcases List.mem_append.mp hy with h3 | h3
            · exact Or.inl h3
            · rw [List.mem_singleton.mp h3]; exact Or.inr (Or.inr (by simp [hl]))
          · rw [if_neg hc] at hy
            exact Or.inl hy
        · by_cases hc : init.1.length < init.2.length
          · rw [if_pos hc] at hy
            exact Or.inr (Or.inl hy)
          · rw [if_neg hc] at hy
            simp only at hy
            rcases List.mem_append.mp hy with h3 | h3
            · exact Or.inr (Or.inl h3)
            · rw [List.mem_singleton.mp h3]; exact Or.inr (Or.inr (by simp [hl]))
      · rcases hy with hy | hy
        · rcases List.mem_append.mp hy with h3 | h3
          · exact Or.inl h3
          · rw [List.mem_singleton.mp h3]; exact Or.inr (Or.inr (by simp [hl]))
        · rcases List.mem_append.mp hy with h3 | h3
          · exact Or.inr (Or.inl h3)
          · rw [List.mem_singleton.mp h3]; exact Or.inr (Or.inr (by simp [hl]))
    rcases h2 with h3 | h3 | h3
    · rcases hstep x (Or.inl h3) with h4 | h4 | h4
      · exact Or.inl h4
      · exact Or.inr (Or.inl h4)
      · exact Or.inr (Or.inr ⟨g, List.mem_cons_self g gs, h4⟩)
    · rcases hstep x (Or.inr h3) with h4 | h4 | h4
      · exact Or.inl h4
      · exact Or.inr (Or.inl h4)
      · exact Or.inr (Or.inr ⟨g, List.mem_cons_self g gs, h4⟩)
    · obtain ⟨g2, hg2, hx⟩ := h3
      exact Or.inr (Or.inr ⟨g2, List.mem_cons_of_mem g hg2, hx⟩)

/-- One split step keeps both halves non-empty. -/
theorem foldSplitStep_keep (s : List Tile × List Tile) (l : List Tile)
    (h1 : s.1 ≠ []) (h2 : s.2 ≠ []) :
    (foldSplitStep s l).1 ≠ [] ∧ (foldSplitStep s l).2 ≠ [] := by
  unfold foldSplitStep
  rcases l with _ | ⟨a, _ | ⟨b, rest⟩⟩ <;> dsimp only
  · exact ⟨h1, h2⟩
  · by_cases hc : s.1.length < s.2.length
    · rw [if_pos hc]
      exact ⟨by simp, h2⟩
    · rw [if_neg hc]
      exact ⟨h1, by simp⟩
  · exact ⟨by simp, by simp⟩

/-- The whole split keeps both halves non-empty. -/
theorem foldSplit_mono : ∀ (groups : List (TileColor × List Tile)) (s : List Tile × List Tile),
    s.1 ≠ [] → s.2 ≠ [] → (foldSplit groups s).1 ≠ [] ∧ (foldSplit groups s).2 ≠ [] := by
  intro groups
  induction groups with
  | nil => exact fun s h1 h2 => ⟨h1, h2⟩
  | cons g gs ih =>
    intro s h1 h2
    have heq : foldSplit (g :: gs) s = foldSplit gs (foldSplitStep s g.2) := by
      unfold foldSplit
      rw [List.foldl_cons]
    rw [heq]
    obtain ⟨k1, k2⟩ := foldSplitStep_keep s g.2 h1 h2
    exact ih _ k1 k2

/-- Splitting at least two tiles across non-empty groups yields two
non-empty halves. -/
theorem foldSplit_ne (groups : List (TileColor × List Tile))
    (hne : ∀ g ∈ groups, g.2 ≠ [])
    (hsum : 2 ≤ (groups.map fun g => g.2.length).sum) :
    (foldSplit groups ([], [])).1 ≠ [] ∧ (foldSplit groups ([], [])).2 ≠ [] := by
  match groups with
  | [] => simp at hsum
  | [g] =>
    have hlen : 2 ≤ g.2.length := by simpa using hsum
    obtain ⟨a, b, rest, hab⟩ : ∃ a b rest, g.2 = a :: b :: rest := by
      rcases hg : g.2 with _ | ⟨a, _ | ⟨b, r⟩⟩
      · rw [hg] at hlen; simp at hlen
      · rw [hg] at hlen; simp at hlen
      · exact ⟨a, b, r, rfl⟩
    have heq : foldSplit [g] ([], []) = foldSplitStep ([], []) g.2 := by
      unfold foldSplit
      rw [List.foldl_cons, List.foldl_nil]
    rw [heq, hab]
    unfold foldSplitStep
    dsimp only
    exact ⟨by simp, by simp⟩
  | g1 :: g2 :: gs =>
    have heq : foldSplit (g1 :: g2 :: gs) ([], []) =
        foldSplit gs (foldSplitStep (foldSplitStep ([], []) g1.2) g2.2) := by
      unfold foldSplit
      rw [List.foldl_cons, List.foldl_cons]
    rw [heq]
    obtain ⟨a1, r1, hg1⟩ : ∃ a r, g1.2 = a :: r := by
      rcases hg : g1.2 with _ | ⟨a, r⟩
      · exact absurd hg (hne g1 (List.mem_cons_self _ _))
      · exact ⟨a, r, rfl⟩
    obtain ⟨a2, r2, hg2⟩ : ∃ a r, g2.2 = a :: r := by
      rcases hg : g2.2 with _ | ⟨a, r⟩
      · exact absurd hg (hne g2 (List.mem_cons_of_mem _ (List.mem_cons_self _ _)))
      · exact ⟨a, r, rfl⟩
    refine foldSplit_mono gs _ ?_ ?_ <;>
      rcases r1 with _ | ⟨b1, r1'⟩ <;> rcases r2 with _ | ⟨b2, r2'⟩ <;>
        simp [foldSplitStep, hg1, hg2]

/-- Melds produced by the clone-based mixed split are non-empty and
inherit any property of the bucket's tiles. -/
theorem generateClone_cand (Q : Tile → Prop) (bucket : List Tile)
    (h3 : 3 ≤ bucket.length) (hq : ∀ t ∈ bucket, Q t) :
    ∀ m ∈ generateClone bucket, m ≠ [] ∧ ∀ t ∈ m, Q t := by
  intro m hm
  unfold generateClone at hm
  by_cases h6 : bucket.length < 6
  · rw [if_pos h6] at hm
    rw [List.mem_singleton.mp hm]
    refine ⟨?_, hq⟩
    intro he
    rw [he] at h3
    simp at h3
  · rw [if_neg h6] at hm
    dsimp only at hm
    have hg := groupByKey_prop Tile.color bucket
    have hsum : 2 ≤ ((groupByKey Tile.color bucket).map fun g => g.2.length).sum := by
      rw [groupByKey_sum]
      omega
    have hne := foldSplit_ne (groupByKey Tile.color bucket)
      (fun g hgm => (hg g hgm).1) hsum
    have helem : ∀ t, t ∈ (foldSplit (groupByKey Tile.color bucket) ([], [])).1 ∨
        t ∈ (foldSplit (groupByKey Tile.color bucket) ([], [])).2 → Q t := by
      intro t ht
      rcases foldSplit_mem _ ([], []) t ht with h2 | h2 | h2
      · simp at h2
      · simp at h2
      · obtain ⟨g, hgm, htg⟩ := h2
        exact hq t ((hg g hgm).2 t htg).1
    rcases List.mem_cons.mp hm with h | h
    · rw [h]
      exact ⟨hne.1, fun t ht => helem t (Or.inl ht)⟩
    · rw [List.mem_singleton.mp h]
      exact ⟨hne.2, fun t ht => helem t (Or.inr ht)⟩

/-- Melds produced by the fresh-tile mixed split are non-empty, and
each fresh tile matches (flag-blind) an original bucket tile, because
all bucket tiles share one number and the fresh tile copies a bucket
color. -/
theorem generateFresh_cand (bucket pool : List Tile) (h3 : 3 ≤ bucket.length)
    (hsame : ∀ t ∈ bucket, ∀ t2 ∈ bucket, t.number = t2.number)
    (hmem : ∀ t ∈ bucket, t ∈ pool) :
    ∀ m ∈ generateFresh bucket, m ≠ [] ∧ ∀ t ∈ m, ∃ u ∈ pool, matchB t u = true := by
  intro m hm
  unfold generateFresh at hm
  by_cases h6 : bucket.length < 6
  · rw [if_pos h6] at hm
    rw [List.mem_singleton.mp hm]
    refine ⟨?_, fun t ht => ⟨t, hmem t ht, matchB_self t⟩⟩
    intro he
    rw [he] at h3
    simp at h3
  · rw [if_neg h6] at hm
    cases hh : bucket.head? with
    | none =>
      rcases bucket with _ | ⟨x, xs⟩
      · simp at h3
      · rw [List.head?_cons] at hh
        cases hh
    | some hd =>
      rw [hh] at hm
      dsimp only at hm
      have hhd : hd ∈ bucket := List.mem_of_mem_head? (by rw [hh]; rfl)
      have hg := groupByKey_prop Tile.color bucket
      have hgne : ∀ g ∈ (groupByKey Tile.color bucket).map fun g =>
          (g.1, g.2.map fun _ => (⟨hd.number, g.1, false⟩ : Tile)), g.2 ≠ [] := by
        intro g hgm
        obtain ⟨g0, hg0, rfl⟩ := List.mem_map.mp hgm
        dsimp only
        rw [Ne, List.map_eq_nil_iff]
        exact (hg g0 hg0).1
      have hsum : 2 ≤ (((groupByKey Tile.color bucket).map fun g =>
          (g.1, g.2.map fun _ => (⟨hd.number, g.1, false⟩ : Tile))).map
            fun g => g.2.length).sum := by
        have heq : (((groupByKey Tile.color bucket).map fun g =>
            (g.1, g.2.map fun _ => (⟨hd.number, g.1, false⟩ : Tile))).map
              fun g => g.2.length) =
            (groupByKey Tile.color bucket).map fun g => g.2.length := by
          rw [List.map_map]
          refine List.map_congr_left ?_
          intro g _
          simp
        rw [heq, groupByKey_sum]
        omega
      have hne := foldSplit_ne _ hgne hsum
      have helem : ∀ t,
          t ∈ (foldSplit ((groupByKey Tile.color bucket).map fun g =>
            (g.1, g.2.map fun _ => (⟨hd.number, g.1, false⟩ : Tile))) ([], [])).1 ∨
          t ∈ (foldSplit ((groupByKey Tile.color bucket).map fun g =>
            (g.1, g.2.map fun _ => (⟨hd.number, g.1, false⟩ : Tile))) ([], [])).2 →
          ∃ u ∈ pool, matchB t u = true := by
        intro t ht
        rcases foldSplit_mem _ ([], []) t ht with h2 | h2 | h2
        · simp at h2
        · simp at h2
        · obtain ⟨g, hgm, htg⟩ := h2
          obtain ⟨g0, hg0, rfl⟩ := List.mem_map.mp hgm
          dsimp only at htg
          obtain ⟨x, hx, hxt⟩ := List.mem_map.mp htg
          have hxb := (hg g0 hg0).2 x hx
          have hxn : x.number = hd.number := hsame x hxb.1 hd hhd
          refine ⟨x, hmem x hxb.1, ?_⟩
          rw [← hxt]
          simp [matchB, Tile.req, hxn, hxb.2]
      rcases List.mem_cons.mp hm with h | h
      · rw [h]
        exact ⟨hne.1, fun t ht => helem t (Or.inl ht)⟩
      · rw [List.mem_singleton.mp h]
        exact ⟨hne.2, fun t ht => helem t (Or.inr ht)⟩

/-- Melds extracted by one mixed-colors trial are non-empty and match
pool tiles whenever all trial tiles do. -/
theorem mixedTrial_cand (ge6 : Bool) (tiles2 pool : List Tile)
    (sets : List (List Tile)) (leaves : List Tile)
    (h : mixedTrial ge6 tiles2 = .ok (some (sets, leaves)))
    (hq : ∀ t ∈ tiles2, ∃ u ∈ pool, matchB t u = true) :
    ∀ m ∈ sets, candOK pool m := by
  unfold mixedTrial at h
  cases hb : buildBucketsSkip tiles2 (List.replicate 14 []) with
  | error e => rw [hb, errBind] at h; cases h
  | ok ob =>
    rw [hb, okBind] at h
    cases ob with
    | none =>
      dsimp only at h
      rw [Except.ok.injEq] at h
      cases h
    | some bs =>
      dsimp only at h
      rw [Except.ok.injEq, Option.some.injEq] at h
      have hsets := congrArg Prod.fst h
      dsimp only at hsets
      intro m hm
      rw [← hsets] at hm
      obtain ⟨bucket, hbf, hmg⟩ := List.mem_flatMap.mp hm
      have hbfilters := List.mem_filter.mp hbf
      have hb3 : 3 ≤ bucket.length := by
        have := (Bool.and_eq_true _ _ ▸ hbfilters.2).1
        exact of_decide_eq_true this
      have hbmem : bucket ∈ bs := (List.mem_filter.mp hbfilters.1).1
      have hqb : ∀ t ∈ bucket, ∃ u ∈ pool, matchB t u = true := by
        refine buildBucketsSkip_mem _ tiles2 _ bs hb ?_ hq bucket hbmem
        intro b hb2 t ht
        rw [List.eq_of_mem_replicate hb2] at ht
        simp at ht
      exact generateClone_cand _ bucket hb3 hqb m hmg

/-- Every meld extracted by
`get_available_mixed_colors_tiles_sets` can remove a pool tile. -/
theorem getAvailableMixed_cand (tiles : List Tile) (sets : List (List Tile))
    (leaves : List Tile) (h : getAvailableMixed tiles = .ok (sets, leaves)) :
    ∀ m ∈ sets, candOK tiles m := by
  unfold getAvailableMixed at h
  dsimp only at h
  have hbmem : ∀ t ∈ tiles.filter (fun t => !t.is_wildcard), t ∈ tiles :=
    fun t ht => (List.mem_filter.mp ht).1
  by_cases h1 : wildcardCount tiles = 1
  · rw [if_pos h1] at h
    have hflag : ∃ u ∈ tiles, u.is_wildcard = true :=
      exists_wildcard_of_pos tiles (by omega)
    refine foldlM_keep (fun best => ∀ m2 ∈ best.1, candOK tiles m2) _ trialTiles
      ([], []) (sets, leaves) (by simp) ?_ h
    intro w hw acc r2 hacc hrun
    cases hmt : mixedTrial true ((tiles.filter fun t => !t.is_wildcard) ++ [w]) with
    | error e => rw [hmt, errBind] at hrun; cases hrun
    | ok r =>
      rw [hmt, okBind] at hrun
      cases r with
      | none =>
        rw [Except.ok.injEq] at hrun
        rw [← hrun]
        exact hacc
      | some p =>
        obtain ⟨ts, tl⟩ := p
        dsimp only at hrun
        rw [Except.ok.injEq] at hrun
        rw [← hrun]
        by_cases hcond : ts.length = 0 ∨ acc.1.length < ts.length
        · rw [if_pos hcond]
          refine mixedTrial_cand true _ tiles ts tl hmt ?_
          intro t ht
          rcases List.mem_append.mp ht with h2 | h2
          · exact ⟨t, hbmem t h2, matchB_self t⟩
          · rw [List.mem_singleton.mp h2]
            obtain ⟨u, hu, huf⟩ := hflag
            exact ⟨u, hu, by simp [matchB, trialTiles_flagged w hw, huf]⟩
        · rw [if_neg hcond]
          exact hacc
  · rw [if_neg h1] at h
    by_cases h2 : wildcardCount tiles = 2
    · rw [if_pos h2] at h
      have hflag : ∃ u ∈ tiles, u.is_wildcard = true :=
        exists_wildcard_of_pos tiles (by omega)
      refine foldlM_keep (fun best => ∀ m2 ∈ best.1, candOK tiles m2) _ trialPairs
        ([], []) (sets, leaves) (by simp) ?_ h
      intro p hp acc r2 hacc hrun
      cases hmt : mixedTrial false ((tiles.filter fun t => !t.is_wildcard) ++ [p.1, p.2]) with
      | error e => rw [hmt, errBind] at hrun; cases hrun
      | ok r =>
        rw [hmt, okBind] at hrun
        cases r with
        | none =>
          rw [Except.ok.injEq] at hrun
          rw [← hrun]
          exact hacc
        | some q =>
          obtain ⟨ts, tl⟩ := q
          dsimp only at hrun
          rw [Except.ok.injEq] at hrun
          rw [← hrun]
          by_cases hcond : ts.length = 0 ∨ acc.1.length < ts.length
          · rw [if_pos hcond]
            refine mixedTrial_cand false _ tiles ts tl hmt ?_
            intro t ht
            obtain ⟨u, hu, huf⟩ := hflag
            rcases List.mem_append.mp ht with h3 | h3
            · exact ⟨t, hbmem t h3, matchB_self t⟩
            · rcases List.mem_cons.mp h3 with h4 | h4
              · exact ⟨u, hu, by
                  simp [matchB, h4 ▸ trialTiles_flagged p.1 (trialPairs_mem hp).1, huf]⟩
              · rw [List.mem_singleton.mp h4]
                exact ⟨u, hu, by
                  simp [matchB, trialTiles_flagged p.2 (trialPairs_mem hp).2, huf]⟩
          · rw [if_neg hcond]
            exact hacc
    · rw [if_neg h2] at h
      cases hbp : buildBucketsPlain (tiles.filter fun t => !t.is_wildcard)
          (List.replicate 14 []) with
      | error e => rw [hbp, errBind] at h; cases h
      | ok bs =>
        rw [hbp, okBind] at h
        rw [Except.ok.injEq] at h
        have hsets := congrArg Prod.fst h
        dsimp only at hsets
        intro m hm
        rw [← hsets] at hm
        obtain ⟨bucket, hbf, hmg⟩ := List.mem_flatMap.mp hm
        have hbfilters := List.mem_filter.mp hbf
        have hb3 : 3 ≤ bucket.length := by
          have := (Bool.and_eq_true _ _ ▸ hbfilters.2).1
          exact of_decide_eq_true this
        have hbmem2 : bucket ∈ bs := (List.mem_filter.mp hbfilters.1).1
        have hinv := buildBucketsPlain_inv (tiles.filter fun t => !t.is_wildcard)
          (tiles.filter fun t => !t.is_wildcard) (List.replicate 14 []) bs hbp
          (fun t ht => ht) ?_
        · obtain ⟨⟨j, hj⟩, hget⟩ := List.mem_iff_get.mp hbmem2
          have hbprops : ∀ t ∈ bucket, t.number = j ∧
              t ∈ tiles.filter (fun t => !t.is_wildcard) ∧ t.is_wildcard = false := by
            intro t ht
            exact hinv j hj t (by rw [hget]; exact ht)
          refine generateFresh_cand bucket tiles hb3 ?_ ?_ m hmg
          · intro t ht t2 ht2
            rw [(hbprops t ht).1, (hbprops t2 ht2).1]
          · intro t ht
            exact hbmem t (hbprops t ht).2.1
        · intro j hj t ht
          rw [List.get_eq_getElem, List.getElem_replicate] at ht
          simp at ht

/-- A successful removal scan returns an in-range index. -/
theorem findMatchAux_lt (c : Tile) (removed : List Nat) :
    ∀ (ts : List Tile) (i j : Nat), findMatchAux c removed i ts = some j →
      j < i + ts.length := by
  intro ts
  induction ts with
  | nil => intro i j h; cases h
  | cons t rest ih =>
    intro i j h
    unfold findMatchAux at h
    by_cases hc : removed.contains i = true
    · rw [if_pos hc] at h
      have := ih (i + 1) j h
      simp only [List.length_cons]
      omega
    · rw [if_neg hc] at h
      by_cases hm : matchB c t = true
      · rw [if_pos hm, Option.some.injEq] at h
        simp only [List.length_cons]
        omega
      · rw [if_neg hm] at h
        have := ih (i + 1) j h
        simp only [List.length_cons]
        omega

/-- A failed scan over an empty removal set means no pool tile
matches. -/
theorem findMatchAux_none_no_match (c : Tile) :
    ∀ (ts : List Tile) (i : Nat), findMatchAux c [] i ts = none →
      ∀ u ∈ ts, matchB c u = false := by
  intro ts
  induction ts with
  | nil => intro i _ u hu; cases hu
  | cons t rest ih =>
    intro i h u hu
    unfold findMatchAux at h
    rw [if_neg (by simp)] at h
    by_cases hm : matchB c t = true
    · rw [if_pos hm] at h
      cases h
    · rw [if_neg hm] at h
      rcases List.mem_cons.mp hu with h2 | h2
      · rw [h2]
        exact Bool.not_eq_true _ ▸ hm
      · exact ih (i + 1) h u h2

/-- The removal accumulator only grows. -/
theorem removalFold_extends : ∀ (cs tiles : List Tile) (acc : List Nat),
    ∃ l2, removalFold cs tiles acc = acc ++ l2 := by
  intro cs
  induction cs with
  | nil => intro tiles acc; exact ⟨[], by simp [removalFold]⟩
  | cons c rest ih =>
    intro tiles acc
    unfold removalFold
    cases hf : findMatchAux c acc 0 tiles with
    | some i =>
      obtain ⟨l2, hl⟩ := ih tiles (acc ++ [i])
      exact ⟨[i] ++ l2, by dsimp only; rw [hl]; simp⟩
    | none => exact ih tiles acc

/-- A candidate whose tiles match pool tiles removes at least one
position. -/
theorem removalFold_ne (tiles cand : List Tile) (hc : candOK tiles cand) :
    removalFold cand tiles [] ≠ [] := by
  obtain ⟨hne, hall⟩ := hc
  rcases cand with _ | ⟨c, cs⟩
  · exact absurd rfl hne
  · unfold removalFold
    cases hf : findMatchAux c [] 0 tiles with
    | some i =>
      obtain ⟨l2, hl⟩ := removalFold_extends cs tiles [i]
      dsimp only
      rw [List.nil_append, hl]
      simp
    | none =>
      obtain ⟨u, hu, hm⟩ := hall c (List.mem_cons_self c cs)
      have := findMatchAux_none_no_match c tiles 0 hf u hu
      rw [hm] at this
      cases this

/-- Removed indices are in range. -/
theorem removalFold_lt (tiles : List Tile) : ∀ (cs : List Tile) (acc : List Nat),
    (∀ j ∈ acc, j < tiles.length) → ∀ j ∈ removalFold cs tiles acc, j < tiles.length := by
  intro cs
  induction cs with
  | nil =>
    intro acc hacc
    unfold removalFold
    exact hacc
  | cons c rest ih =>
    intro acc hacc
    unfold removalFold
    cases hf : findMatchAux c acc 0 tiles with
    | some i =>
      refine ih (acc ++ [i]) ?_
      intro j hj
      rcases List.mem_append.mp hj with h2 | h2
      · exact hacc j h2
      · rw [List.mem_singleton.mp h2]
        simpa using findMatchAux_lt c acc tiles 0 i hf
    | none => exact ih acc hacc

/-- Filtering never lengthens the pool. -/
theorem removeIdxs_le (removed : List Nat) : ∀ (ts : List Tile) (i : Nat),
    (removeIdxs removed i ts).length ≤ ts.length := by
  intro ts
  induction ts with
  | nil => intro i; simp [removeIdxs]
  | cons t rest ih =>
    intro i
    unfold removeIdxs
    by_cases hc : removed.contains i = true
    · rw [if_pos hc]
      have := ih (i + 1)
      simp only [List.length_cons]
      omega
    · rw [if_neg hc]
      have := ih (i + 1)
      simp only [List.length_cons]
      omega

/-- Dropping one valid removed index strictly shrinks the pool. -/
theorem removeIdxs_lt (removed : List Nat) : ∀ (ts : List Tile) (i j : Nat),
    j ∈ removed → i ≤ j → j < i + ts.length →
    (removeIdxs removed i ts).length < ts.length := by
  intro ts
  induction ts with
  | nil =>
    intro i j _ hij hlt
    simp only [List.length_nil] at hlt
    omega
  | cons t rest ih =>
    intro i j hj hij hlt
    unfold removeIdxs
    by_cases hc : removed.contains i = true
    · rw [if_pos hc]
      have := removeIdxs_le removed rest (i + 1)
      simp only [List.length_cons]
      omega
    · rw [if_neg hc]
      have hji : j ≠ i := by
        intro he
        rw [he] at hj
        have : removed.contains i = true := by simpa using hj
        rw [this] at hc
        exact hc rfl
      have := ih (i + 1) j hj (by omega) (by simp only [List.length_cons] at hlt; omega)
      simp only [List.length_cons]
      omega

/-- Every good candidate strictly shrinks the pool. -/
theorem remaining_lt (tiles cand : List Tile) (hc : candOK tiles cand) :
    (removeIdxs (removalFold cand tiles []) 0 tiles).length < tiles.length := by
  have hne := removalFold_ne tiles cand hc
  rcases hr : removalFold cand tiles [] with _ | ⟨j, rest⟩
  · exact absurd hr hne
  · have hjmem : j ∈ removalFold cand tiles [] := by
      rw [hr]
      exact List.mem_cons_self j rest
    have hjlt : j < tiles.length :=
      removalFold_lt tiles cand [] (by simp) j hjmem
    exact removeIdxs_lt (j :: rest) tiles 0 j (List.mem_cons_self j rest)
      (Nat.zero_le j) (by omega)

/-- The candidate loop cannot exhaust fuel when the recursive call
does not and all candidates shrink the pool. -/
theorem runCands_ne_out (f : List Tile → List (List Tile) → List String → SRes)
    (tiles : List Tile) (sol : List (List Tile)) :
    ∀ (cands : List (List Tile)) (cache : List String),
      (∀ cand ∈ cands, candOK tiles cand) →
      (∀ t2 s2 c2, t2.length < tiles.length → f t2 s2 c2 ≠ .out) →
      runCands f tiles sol cands cache ≠ .out := by
  intro cands
  induction cands with
  | nil =>
    intro cache _ _ h
    unfold runCands at h
    cases h
  | cons cand rest ih =>
    intro cache hcands hf h
    unfold runCands at h
    dsimp only at h
    have hlt : (removeIdxs (removalFold cand tiles []) 0 tiles).length < tiles.length :=
      remaining_lt tiles cand (hcands cand (List.mem_cons_self cand rest))
    cases hrec : f (removeIdxs (removalFold cand tiles []) 0 tiles)
        (sol ++ [cand]) cache with
    | out => exact hf _ _ cache hlt hrec
    | err m =>
      rw [hrec] at h
      cases h
    | ok r c2 =>
      rw [hrec] at h
      cases r with
      | some s => cases h
      | none => exact ih c2 (fun c hc => hcands c (List.mem_cons_of_mem cand hc)) hf h

/-- C8 (confirmed): `Solver::search` terminates with recursion depth
bounded by the pool size: fuel exceeding the pool's length is never
exhausted, because every candidate meld tried by the search removes at
least one tile, so each recursive call receives a strictly smaller
pool.  (Panicking executions terminate too, as `SRes.err`.) -/
theorem c8_search_depth_bound :
    ∀ (fuel : Nat) (tiles : List Tile) (sol : List (List Tile)) (cache : List String),
      tiles.length < fuel → searchFuel fuel tiles sol cache ≠ SRes.out := by
  intro fuel
  induction fuel with
  | zero =>
    intro tiles _ _ h
    exact absurd h (Nat.not_lt_zero _)
  | succ f ih =>
    intro tiles sol cache hlen h
    unfold searchFuel at h
    by_cases he : tiles = []
    · rw [if_pos he] at h
      cases h
    · rw [if_neg he] at h
      by_cases hcc : (cache.contains (tilesToString tiles) || decide (tiles.length ≤ 2)) = true
      · rw [if_pos hcc] at h
        cases h
      · rw [if_neg hcc] at h
        cases hp : getAvailablePure tiles with
        | error m =>
          rw [hp] at h
          cases h
        | ok pr =>
          obtain ⟨pureSets, leave1⟩ := pr
          rw [hp] at h
          dsimp only at h
          by_cases hl1 : leave1 = []
          · rw [if_pos hl1] at h
            cases h
          · rw [if_neg hl1] at h
            cases hmx : getAvailableMixed tiles with
            | error m =>
              rw [hmx] at h
              cases h
            | ok mr =>
              obtain ⟨mixedSets, leave2⟩ := mr
              rw [hmx] at h
              dsimp only at h
              by_cases hl2 : leave2 = []
              · rw [if_pos hl2] at h
                cases h
              · rw [if_neg hl2] at h
                have hcands : ∀ cand ∈ pureSets ++ mixedSets, candOK tiles cand := by
                  intro cand hc
                  rcases List.mem_append.mp hc with h2 | h2
                  · exact getAvailablePure_cand tiles pureSets leave1 hp cand h2
                  · exact getAvailableMixed_cand tiles mixedSets leave2 hmx cand h2
                have hrc := runCands_ne_out (searchFuel f) tiles sol
                  (pureSets ++ mixedSets) cache hcands
                  fun t2 s2 c2 hlt2 => ih t2 s2 c2 (by omega)
                cases hr : runCands (searchFuel f) tiles sol
                    (pureSets ++ mixedSets) cache with
                | out => exact hrc hr
                | err m =>
                  rw [hr] at h
                  cases h
                | ok r c2 =>
                  rw [hr] at h
                  cases r with
                  | some s => cases h
                  | none => cases h

/-- C8 witness: a three-tile pool with fuel four never exhausts the
fuel. -/
theorem c8_search_depth_bound_witness :
    searchFuel 4 [⟨1, .Red, false⟩, ⟨2, .Red, false⟩, ⟨3, .Red, false⟩] [] [] ≠ SRes.out :=
  c8_search_depth_bound 4 [⟨1, .Red, false⟩, ⟨2, .Red, false⟩, ⟨3, .Red, false⟩] [] []
    (by decide)

end Rummikub
